import Mathlib

/-!
# Shallow embedding of the two-adic FRI polynomial commitment scheme

This file embeds the core of `fri/src/two_adic_pcs.rs` in Lean and proves
theorems checking the natural-language specification against the code:

* bit-reversal utilities (`reverse_bits_len`, `reverse_slice_index_bits`);
* the FRI folding strategy (`fold_row`, `fold_matrix`);
* `commit`;
* the batched opening protocol `open` (embedded as `openBody` / `openPcs`
  together with its phases `evalAllObs`, `accumMat`, `accumAll`, ...);
* `verify` (embedded as `verifyPcs`);
* `compute_inverse_denominators`.

Conventions used throughout:

* machine integers (`usize`, `u64`) are `Nat`; none of the embedded
  arithmetic can overflow in the source (the values are indices of or
  counters over allocated vectors), so no wrap-around modelling is needed;
* the base field `Val` and its extension `Challenge` are modelled as a
  single field `F`; the spec itself only demands agreement "up to field
  embedding", and every source operation factors through the extension;
* panics (`assert!`, `expect`, `unwrap`, out-of-range indexing) are
  modelled by `Option`: a `none` result means the Rust code panics;
* collaborators from other crates (`interpolate_coset_with_precomputation`,
  the DFT, the MMCS commit, `prove_fri` / `verify_fri`, the challenger's
  sampling map) are abstract function parameters;
* the Fiat-Shamir challenger is modelled by its event trace: the list of
  `TEvent.obs` / `TEvent.sample` events it has executed, together with a
  deterministic sampling function from traces to field elements.
-/

set_option maxHeartbeats 1000000

namespace TwoAdicPcs

/-! ## Bit reversal and other `p3_util` helpers -/

/-- `p3_util::reverse_bits_len(i, bits)`: reverse the low `bits` bits of `i`. -/
def reverse_bits_len : Nat → Nat → Nat
  | _, 0 => 0
  | i, bits + 1 => i % 2 * 2 ^ bits + reverse_bits_len (i / 2) bits

/-- Base-two logarithm, defined with explicit fuel so that it reduces inside
the kernel (core's `Nat.log2` uses well-founded recursion and does not). -/
def log2F : Nat → Nat → Nat
  | 0, _ => 0
  | fuel + 1, n => if n ≤ 1 then 0 else log2F fuel (n / 2) + 1

/-- `p3_util::log2_strict_usize(n)`'s value.  The source asserts that `n` is a
power of two and panics otherwise; every embedding definition that calls
`log2Nat` is either guarded by an explicit power-of-two check (`openPcs`) or
used in theorems whose hypotheses supply one. -/
def log2Nat (n : Nat) : Nat := log2F n n

/-- `p3_util::reverse_slice_index_bits`: permute a slice so that entry `j`
receives the entry whose index is the bit reversal of `j` (the source swaps
in place; the slice length is a power of two at every call site, so the
default `dflt` is never read). -/
def reverse_slice_index_bits {α : Type} (dflt : α) (l : List α) : List α :=
  (List.range l.length).map fun j => l.getD (reverse_bits_len j (log2Nat l.length)) dflt

/-- Concatenation of a list of lists (the iterator `flatten` / `flat_map`). -/
def listJoin {α : Type} : List (List α) → List α
  | [] => []
  | l :: ls => l ++ listJoin ls

/-- `Powers::shifted_powers(start).collect_n(n)`: the list
`[start, start*base, start*base^2, ...]` of length `n`. -/
def shifted_powers {F : Type} [Monoid F] (base start : F) (n : Nat) : List F :=
  (List.range n).map fun i => start * base ^ i

/-- `p3_field::dot_product`: sum of the pairwise products; the zip truncates
to the shorter of the two lists, exactly as the Rust iterator zip does. -/
def dot_product {F : Type} [NonUnitalNonAssocSemiring F] (u v : List F) : F :=
  (List.zipWith (· * ·) u v).sum

/-! ## The FRI folding strategy (`TwoAdicFriFolding`) -/

/-- `.halve()`: division by two in the field. -/
def halveF {F : Type} [Field F] (x : F) : F := x / 2

/-- `TwoAdicFriFolding::fold_row`: interpolate the two sibling evaluations
`(e0, e1)` at the challenge `beta`.  The map `g` models
`F::two_adic_generator` (so `g k` generates the subgroup of order `2 ^ k`).
The source receives the evaluations as an iterator and panics via
`collect_tuple` unless it yields exactly two elements, so the embedding takes
the pair directly.  The base-field nodes `xs` and the extension-field
evaluations live in the single field `F` here (field embedding). -/
def fold_row {F : Type} [Field F] (g : Nat → F) (index log_height : Nat)
    (beta e0 e1 : F) : F :=
  let subgroup_start := g (log_height + 1) ^ reverse_bits_len index log_height
  let xs := reverse_slice_index_bits 0 (shifted_powers (g 1) subgroup_start 2)
  e0 + (beta - xs.getD 0 0) * (e1 - e0) * (xs.getD 1 0 - xs.getD 0 0)⁻¹

/-- `TwoAdicFriFolding::fold_matrix`: fold a whole evaluation vector, given
as the rows of a two-column matrix of sibling pairs `(lo, hi)` (the source
reads each row with `next_tuple()`). -/
def fold_matrix {F : Type} [Field F] (g : Nat → F) (beta : F) (m : List (F × F)) : List F :=
  let g_inv := (g (log2Nat m.length + 1))⁻¹
  let halve_inv_powers := reverse_slice_index_bits 0 (shifted_powers g_inv (halveF 1) m.length)
  (m.zip halve_inv_powers).map fun rp =>
    halveF (rp.1.1 + rp.1.2) + (rp.1.1 - rp.1.2) * beta * rp.2

/-! ## Data model -/

/-- One event of the Fiat-Shamir challenger: observing an element or
sampling one. -/
inductive TEvent (F : Type) where
  | obs : F → TEvent F
  | sample : TEvent F
deriving DecidableEq

/-- The trace of a challenger: the list of events it has executed, oldest
first.  Sampled values are produced by a deterministic function of the trace
(the challenger is a deterministic observe-then-sample oracle). -/
abbrev Trace (F : Type) := List (TEvent F)

/-- An evaluation matrix (`RowMajorMatrix`): a width and the list of rows. -/
structure Mat (F : Type) where
  width : Nat
  rows : List (List F)
deriving DecidableEq

/-- `Matrix::height()`. -/
def height {F : Type} (m : Mat F) : Nat := m.rows.length

/-- `Matrix::split_rows(h)`: the first `h` rows and the rest. -/
def split_rows {F : Type} (m : Mat F) (h : Nat) : Mat F × Mat F :=
  (⟨m.width, m.rows.take h⟩, ⟨m.width, m.rows.drop h⟩)

/-- `TwoAdicMultiplicativeCoset`: a shift and a log-size. -/
structure TwoAdicDomain (F : Type) where
  shift : F
  log_size : Nat
deriving DecidableEq

/-- `TwoAdicMultiplicativeCoset::size()`. -/
def domSize {F : Type} (d : TwoAdicDomain F) : Nat := 2 ^ d.log_size

/-- `p3_util::linear_map::LinearMap`: an association list scanned linearly;
the first pair with a matching key wins. -/
abbrev LinMap (K V : Type) := List (K × V)

/-- `LinearMap::get`. -/
def lmGet {K V : Type} [DecidableEq K] : LinMap K V → K → Option V
  | [], _ => none
  | p :: ps, k => if p.1 = k then some p.2 else lmGet ps k

/-! ## `commit` -/

/-- `Matrix::bit_reverse_rows().to_row_major_matrix()`: permute the rows by
index bit reversal (the representation change of `to_row_major_matrix` is
invisible in this model). -/
def bit_reverse_rows {F : Type} (m : Mat F) : Mat F :=
  ⟨m.width, reverse_slice_index_bits [] m.rows⟩

/-- Sequence a fallible map over a list, left to right (`none` = the
iteration panicked). -/
def optList {α β : Type} (f : α → Option β) : List α → Option (List β)
  | [] => some []
  | x :: xs =>
    match f x, optList f xs with
    | some y, some ys => some (y :: ys)
    | _, _ => none

/-- `TwoAdicFriPcs::commit`: for each `(domain, mat)` pair assert
`domain.size() == mat.height()`, compute the low-degree extension onto the
canonical generator-based coset (shift `GENERATOR / domain.shift`), bit
reverse the rows, and commit to all results with the MMCS in one call.
`coset_lde_batch` (the DFT) and `mmcs_commit` are collaborator parameters;
`generator` models `Val::GENERATOR`. -/
def commit {F : Type} [Field F] {Cm PData : Type} (generator : F) (log_blowup : Nat)
    (coset_lde_batch : Mat F → Nat → F → Mat F)
    (mmcs_commit : List (Mat F) → Cm × PData)
    (evaluations : List (TwoAdicDomain F × Mat F)) : Option (Cm × PData) :=
  (optList (fun dm =>
      if domSize dm.1 = height dm.2 then
        some (bit_reverse_rows (coset_lde_batch dm.2 log_blowup (generator / dm.1.shift)))
      else none) evaluations).map mmcs_commit

/-! ## `open`: evaluation & observation phase -/

/-- The fixed context of an `open` call: `Val::GENERATOR`, the two-adic
generator tower, the FRI blow-up, and the two collaborators used inside the
evaluation phase (`interpolate_coset_with_precomputation`, taking the
truncated matrix, the coset shift, the point, the coset values and the
inverse denominators; and the challenger's deterministic sampling map). -/
structure OpenCfg (F : Type) where
  gen : F
  g : Nat → F
  log_blowup : Nat
  interp : Mat F → F → F → List F → List F → List F
  sampleF : Trace F → F

/-- The per-round input of `open` after `get_matrices`: for each commitment,
the list of its matrices and, per matrix, the list of opening points. -/
abbrev MatsPoints (F : Type) := List (List (Mat F) × List (List F))

/-- The `(height, width)` pairs of all matrices in the batch, in order. -/
def matDims {F : Type} (mp : MatsPoints F) : List (Nat × Nat) :=
  listJoin (mp.map fun r => r.1.map fun m => (height m, m.width))

/-- All matrices of the batch, in order. -/
def allMats {F : Type} (mp : MatsPoints F) : List (Mat F) :=
  listJoin (mp.map fun r => r.1)

/-- The `Iterator::reduce` computing the maximum height and maximum width
over all matrices; `none` on an empty batch (where the source's
`.expect("No Matrices Supplied?")` panics). -/
def reduceMaxDims : List (Nat × Nat) → Option (Nat × Nat)
  | [] => none
  | d :: ds => some (ds.foldl (fun a b => (max a.1 b.1, max a.2 b.2)) d)

/-- `TwoAdicMultiplicativeCoset::new(gen, log_n)`'s point enumeration:
`gen * g(log_n) ^ i` for `i < 2 ^ log_n`. -/
def cosetPoints {F : Type} [Field F] (gen : F) (g : Nat → F) (log_n : Nat) : List F :=
  (List.range (2 ^ log_n)).map fun i => gen * g log_n ^ i

/-- One step of the first loop of `compute_inverse_denominators`: record
`log_height` for the point `z`, taking the max with an existing entry. -/
def updateMaxLh {F : Type} [DecidableEq F] : LinMap F Nat → F → Nat → LinMap F Nat
  | [], z, lh => [(z, lh)]
  | p :: ps, z, lh => if p.1 = z then (p.1, max p.2 lh) :: ps else p :: updateMaxLh ps z lh

/-- The first loop of `compute_inverse_denominators`: for each point `z`, the
maximal `log2` height of any matrix opened at `z` (`izip!` truncates to the
shorter list, like `List.zip`). -/
def max_log_height_for_point {F : Type} [DecidableEq F] (mp : MatsPoints F) : LinMap F Nat :=
  mp.foldl (fun m r =>
    (r.1.zip r.2).foldl (fun m mpts =>
      mpts.2.foldl (fun m z => updateMaxLh m z (log2Nat (height mpts.1))) m) m) []

/-- Collaborator `p3_field::batch_multiplicative_inverse`: elementwise
inverse (the batching is a performance device only). -/
def batch_multiplicative_inverse {F : Type} [Field F] (l : List F) : List F :=
  l.map fun x => x⁻¹

/-- `compute_inverse_denominators`: for each distinct point `z`, the dense
vector of `1/(z - x)` over the first `2 ^ max_log_height` entries of the
bit-reversed `coset`. -/
def compute_inverse_denominators {F : Type} [Field F] [DecidableEq F]
    (mp : MatsPoints F) (coset : List F) : LinMap F (List F) :=
  (max_log_height_for_point mp).map fun zlh =>
    (zlh.1, batch_multiplicative_inverse ((coset.take (2 ^ zlh.2)).map fun x => zlh.1 - x))

/-- Observe a list of evaluations on the transcript, in order
(`challenger.observe_algebra_element` per element). -/
def obsList {F : Type} (t : Trace F) (ys : List F) : Trace F := t ++ ys.map TEvent.obs

/-- Map a transcript-threading computation over a list, collecting the
results in order (the `map`-with-side-effects idiom of the source's
evaluation loops). -/
def mapObs {F α β : Type} (f : α → Trace F → β × Trace F) (l : List α) (t : Trace F) :
    List β × Trace F :=
  l.foldl (fun acc a => match f a acc.2 with | (b, t') => (acc.1 ++ [b], t')) ([], t)

/-- The evaluation of one matrix at one point: Barycentric interpolation via
the collaborator, over the truncated matrix and coset, using the inverse
denominators for that point truncated to `hh` (`inv_denoms.get(&point).unwrap()[..hh]`;
the `unwrap` cannot fire because every opened point is a key, see
`lmGet_compute_inverse_denominators`). -/
def evalPoint {F : Type} [Field F] [DecidableEq F] (cfg : OpenCfg F) (low_coset : Mat F)
    (coset_h : List F) (inv_denoms : LinMap F (List F)) (hh : Nat) (z : F) : List F :=
  cfg.interp low_coset cfg.gen z coset_h (((lmGet inv_denoms z).getD []).take hh)

/-- Evaluate one matrix at all its points, observing every returned
evaluation on the transcript: the matrix is truncated to its first
`height >> log_blowup` rows and the (bit-reversed) coset to the same length
before interpolating. -/
def evalMatObs {F : Type} [Field F] [DecidableEq F] (cfg : OpenCfg F) (coset : List F)
    (inv_denoms : LinMap F (List F)) (mat : Mat F) (pts : List F) (t : Trace F) :
    List (List F) × Trace F :=
  let hh := height mat >>> cfg.log_blowup
  let low_coset := (split_rows mat hh).1
  let coset_h := coset.take hh
  mapObs (fun z t =>
    let ys := evalPoint cfg low_coset coset_h inv_denoms hh z
    (ys, obsList t ys)) pts t

/-- Evaluate all matrices of one commitment (`izip!(mats, points)`). -/
def evalRoundObs {F : Type} [Field F] [DecidableEq F] (cfg : OpenCfg F) (coset : List F)
    (inv_denoms : LinMap F (List F)) (mats : List (Mat F)) (points : List (List F))
    (t : Trace F) : List (List (List F)) × Trace F :=
  mapObs (fun mp t => evalMatObs cfg coset inv_denoms mp.1 mp.2 t) (mats.zip points) t

/-- The whole evaluation/observation phase of `open` (`all_opened_values`). -/
def evalAllObs {F : Type} [Field F] [DecidableEq F] (cfg : OpenCfg F) (coset : List F)
    (inv_denoms : LinMap F (List F)) (mp : MatsPoints F) (t : Trace F) :
    List (List (List (List F))) × Trace F :=
  mapObs (fun r t => evalRoundObs cfg coset inv_denoms r.1 r.2 t) mp t

/-- The value part of `evalMatObs`, without the transcript. -/
def evalMatPure {F : Type} [Field F] [DecidableEq F] (cfg : OpenCfg F) (coset : List F)
    (inv_denoms : LinMap F (List F)) (mat : Mat F) (pts : List F) : List (List F) :=
  let hh := height mat >>> cfg.log_blowup
  pts.map fun z => evalPoint cfg (split_rows mat hh).1 (coset.take hh) inv_denoms hh z

/-- The value part of `evalRoundObs`, without the transcript. -/
def evalRoundPure {F : Type} [Field F] [DecidableEq F] (cfg : OpenCfg F) (coset : List F)
    (inv_denoms : LinMap F (List F)) (mats : List (Mat F)) (points : List (List F)) :
    List (List (List F)) :=
  (mats.zip points).map fun mp => evalMatPure cfg coset inv_denoms mp.1 mp.2

/-- The value part of `evalAllObs`, without the transcript. -/
def evalAllPure {F : Type} [Field F] [DecidableEq F] (cfg : OpenCfg F) (coset : List F)
    (inv_denoms : LinMap F (List F)) (mp : MatsPoints F) : List (List (List (List F))) :=
  mp.map fun r => evalRoundPure cfg coset inv_denoms r.1 r.2

/-- Flatten nested opened values in nesting order: outer commitment, then
matrix, then point, then column. -/
def flatVals {F : Type} (v : List (List (List (List F)))) : List F :=
  listJoin (listJoin (listJoin v))

/-! ## `open`: quotient accumulation phase -/

/-- The mutable state of the accumulation loop: `num_reduced` (the source's
32-slot array of counters, as a total map) and `reduced_openings` (the
source's 32-slot array of optional accumulator vectors).  The source's fixed
array bound requires `log_height < 32`; `openPcs` guards exactly that. -/
structure AccState (F : Type) where
  nr : Nat → Nat
  ro : Nat → Option (List F)

/-- `a.zip(b).zip(c).for_each(...)` with `b` the mutated vector: update the
common prefix pointwise, leave the remainder of `b` unchanged. -/
def forEachZip {α β γ : Type} (f : α → β → γ → β) : List α → List β → List γ → List β
  | x :: xs, y :: ys, z :: zs => f x y z :: forEachZip f xs ys zs
  | _, ys, _ => ys

/-- The body of `open`'s inner point loop: scale by
`alpha ^ num_reduced[log_height]`, fold the claimed openings with the alpha
powers, add `alpha_pow_offset * (Mred(z) - Mred(x)) / (z - x)` into the
accumulator, and advance the counter by the matrix width. -/
def accumPointStep {F : Type} [Field F] [DecidableEq F] (alpha : F) (alpha_powers : List F)
    (w : Nat) (mat_compressed : List F) (inv_denoms : LinMap F (List F))
    (p : Nat × List F) (zo : F × List F) : Nat × List F :=
  let alpha_pow_offset := alpha ^ p.1
  let reduced_openings := dot_product alpha_powers zo.2
  (p.1 + w,
   forEachZip (fun mr a iv => a + alpha_pow_offset * (reduced_openings - mr) * iv)
     mat_compressed p.2 ((lmGet inv_denoms zo.1).getD []))

/-- `open`'s per-matrix accumulation: look up (or zero-initialize, at the
full matrix height) the accumulator for `log2(mat.height())`, compress the
full matrix rows with the alpha powers (`rowwise_packed_dot_product`), and
fold every `(point, openings)` pair with `accumPointStep`. -/
def accumMat {F : Type} [Field F] [DecidableEq F] (alpha : F) (alpha_powers : List F)
    (inv_denoms : LinMap F (List F)) (st : AccState F) (mat : Mat F)
    (pts : List F) (ops : List (List F)) : AccState F :=
  let log_height := log2Nat (height mat)
  let acc0 := (st.ro log_height).getD (List.replicate (height mat) (0 : F))
  let mat_compressed := mat.rows.map fun row => dot_product alpha_powers row
  let res := (pts.zip ops).foldl
    (accumPointStep alpha alpha_powers mat.width mat_compressed inv_denoms)
    (st.nr log_height, acc0)
  { nr := fun x => if x = log_height then res.1 else st.nr x,
    ro := fun x => if x = log_height then some res.2 else st.ro x }

/-- `izip!` over three lists. -/
def zip3 {α β γ : Type} (a : List α) (b : List β) (c : List γ) : List (α × β × γ) :=
  a.zip (b.zip c)

/-- The accumulation loop over the matrices of one commitment. -/
def accumRound {F : Type} [Field F] [DecidableEq F] (alpha : F) (alpha_powers : List F)
    (inv_denoms : LinMap F (List F)) (st : AccState F) (mats : List (Mat F))
    (points : List (List F)) (ops : List (List (List F))) : AccState F :=
  (zip3 mats points ops).foldl
    (fun st mpo => accumMat alpha alpha_powers inv_denoms st mpo.1 mpo.2.1 mpo.2.2) st

/-- The whole accumulation loop of `open`, starting from all-zero counters
and no accumulator vectors. -/
def accumAll {F : Type} [Field F] [DecidableEq F] (alpha : F) (alpha_powers : List F)
    (inv_denoms : LinMap F (List F)) (mp : MatsPoints F)
    (vals : List (List (List (List F)))) : AccState F :=
  (mp.zip vals).foldl
    (fun st rv => accumRound alpha alpha_powers inv_denoms st rv.1.1 rv.1.2 rv.2)
    ⟨fun _ => 0, fun _ => none⟩

/-! ## `open`: assembly -/

/-- The observable outcome of an `open` call, up to the hand-off to the
collaborator `prove_fri` (which consumes `fri_input` and the transcript as
of `trace_at_alpha`). -/
structure OpenOut (F : Type) where
  opened_values : List (List (List (List F)))
  trace_at_alpha : Trace F
  alpha : F
  num_reduced : Nat → Nat
  reduced_openings : Nat → Option (List F)
  fri_input : List (List F)

/-- The body of `open` once the batch is known non-empty: build the
bit-reversed canonical coset for the global max height, precompute the
inverse denominators, run the evaluation/observation phase, sample `alpha`,
precompute its powers up to the global max width, run the accumulation loop,
and flatten the accumulators from largest height to smallest
(`reduced_openings.into_iter().rev().flatten()`). -/
def openBody {F : Type} [Field F] [DecidableEq F] (cfg : OpenCfg F) (mp : MatsPoints F)
    (gmh gmw : Nat) (t0 : Trace F) : OpenOut F :=
  let log_global_max_height := log2Nat gmh
  let coset := reverse_slice_index_bits 0 (cosetPoints cfg.gen cfg.g log_global_max_height)
  let inv_denoms := compute_inverse_denominators mp coset
  let vt := evalAllObs cfg coset inv_denoms mp t0
  let alpha := cfg.sampleF vt.2
  let trace_at_alpha := vt.2 ++ [TEvent.sample]
  let alpha_powers := (List.range gmw).map fun i => alpha ^ i
  let st := accumAll alpha alpha_powers inv_denoms mp vt.1
  ⟨vt.1, trace_at_alpha, alpha, st.nr, st.ro, (List.range 32).reverse.filterMap st.ro⟩

/-- `TwoAdicFriPcs::open`: extract the matrices from the prover data
(`mmcs.get_matrices`, a collaborator parameter), find the global max height
and width (panicking on an empty batch), and run `openBody`.  The `if`
guard collects the panic conditions of `log2_strict_usize` and of indexing
the 32-slot arrays: on inputs violating it the source panics. -/
def openPcs {F : Type} [Field F] [DecidableEq F] {PData : Type} (cfg : OpenCfg F)
    (get_matrices : PData → List (Mat F))
    (data : List (PData × List (List F))) (t0 : Trace F) : Option (OpenOut F) :=
  let mp := data.map fun dp => (get_matrices dp.1, dp.2)
  match reduceMaxDims (matDims mp) with
  | none => none
  | some gm =>
    if (allMats mp).all
        (fun m => decide (2 ^ log2Nat (height m) = height m ∧ log2Nat (height m) < 32))
    then some (openBody cfg mp gm.1 gm.2 t0)
    else none

/-! ## `verify` -/

/-- The claimed evaluations of a `verify` input, flattened in the source's
observation order: commitment, then matrix, then point, then column. -/
def flatClaimed {F Cm Dm : Type} (input : List (Cm × List (Dm × List (F × List F)))) :
    List F :=
  listJoin (input.map fun r =>
    listJoin (r.2.map fun dm => listJoin (dm.2.map fun pv => pv.2)))

/-- The observation loop of `verify`: for every commitment, matrix and
point, observe each claimed evaluation on the transcript. -/
def verifyObsTrace {F Cm Dm : Type} (input : List (Cm × List (Dm × List (F × List F))))
    (t0 : Trace F) : Trace F :=
  input.foldl (fun t r =>
    r.2.foldl (fun t dm =>
      dm.2.foldl (fun t pv =>
        pv.2.foldl (fun t y => t ++ [TEvent.obs y]) t) t) t) t0

/-- `TwoAdicFriPcs::verify`: observe all claimed evaluations, then delegate
to the collaborator `verify_fri` (given the transcript state and the
commitments with opening points) and propagate its result (`?` plus
`Ok(())`). -/
def verifyPcs {F Cm Dm E : Type}
    (verify_fri : Trace F → List (Cm × List (Dm × List (F × List F))) → Except E Unit)
    (input : List (Cm × List (Dm × List (F × List F)))) (t0 : Trace F) : Except E Unit :=
  match verify_fri (verifyObsTrace input t0) input with
  | .ok _ => .ok ()
  | .error e => .error e

/-! ## Analysis-side definitions (closed forms and spec-modelled variants) -/

/-- The per-point accumulation of `accumMat` in closed form: starting from
count `n`, the point `zo` is folded with offset `alpha ^ n`, and the count
advances by the width `w` before the remaining points are processed. -/
def accumPointsFrom {F : Type} [Field F] [DecidableEq F] (alpha : F) (alpha_powers : List F)
    (w : Nat) (mat_compressed : List F) (inv_denoms : LinMap F (List F)) :
    Nat → List F → List (F × List F) → Nat × List F
  | n, acc, [] => (n, acc)
  | n, acc, zo :: rest =>
    accumPointsFrom alpha alpha_powers w mat_compressed inv_denoms (n + w)
      (forEachZip (fun mr a iv => a + alpha ^ n * (dot_product alpha_powers zo.2 - mr) * iv)
        mat_compressed acc ((lmGet inv_denoms zo.1).getD []))
      rest

/-- Modelled from the spec sentence behind claim C2, NOT from the source:
the alpha-power offset is fixed for the whole matrix, and the per-height
running column offset is incremented by the matrix's width exactly once per
matrix, after all of its opening points have been processed. -/
def accumMatClaimC2 {F : Type} [Field F] [DecidableEq F] (alpha : F) (alpha_powers : List F)
    (inv_denoms : LinMap F (List F)) (st : AccState F) (mat : Mat F)
    (pts : List F) (ops : List (List F)) : AccState F :=
  let log_height := log2Nat (height mat)
  let acc0 := (st.ro log_height).getD (List.replicate (height mat) (0 : F))
  let mat_compressed := mat.rows.map fun row => dot_product alpha_powers row
  let alpha_pow_offset := alpha ^ st.nr log_height
  let acc1 := (pts.zip ops).foldl
    (fun acc zo =>
      forEachZip (fun mr a iv => a + alpha_pow_offset * (dot_product alpha_powers zo.2 - mr) * iv)
        mat_compressed acc ((lmGet inv_denoms zo.1).getD []))
    acc0
  { nr := fun x => if x = log_height then st.nr log_height + mat.width else st.nr x,
    ro := fun x => if x = log_height then some acc1 else st.ro x }

/-- The multiset-free list of `(point, log-height)` pairs scanned by
`max_log_height_for_point`, in scan order. -/
def pointPairs {F : Type} (mp : MatsPoints F) : List (F × Nat) :=
  listJoin (mp.map fun r =>
    listJoin ((r.1.zip r.2).map fun mpts => mpts.2.map fun z => (z, log2Nat (height mpts.1))))

/-- Merge of two optional maxima. -/
def omax2 : Option Nat → Option Nat → Option Nat
  | none, b => b
  | some a, none => some a
  | some a, some b => some (max a b)

/-- The maximum log-height associated to `z` in a pair list (`none` if `z`
does not occur). -/
def pointMaxLh {F : Type} [DecidableEq F] : List (F × Nat) → F → Option Nat
  | [], _ => none
  | p :: ps, z => omax2 (if p.1 = z then some p.2 else none) (pointMaxLh ps z)

/-- Triples actually processed by the accumulation loop (its zips truncate
to the shorter list, exactly like the source's `izip!`). -/
def matTriples {F : Type} (mp : MatsPoints F) (vals : List (List (List (List F)))) :
    List (Mat F × List F × List (List F)) :=
  listJoin ((mp.zip vals).map fun rv => zip3 rv.1.1 rv.1.2 rv.2)

/-! ## Concrete field for the witnesses -/

instance : Fact (Nat.Prime 17) := ⟨by norm_num⟩

/-- A concrete two-adic generator tower in `ZMod 17` (`3` generates the full
multiplicative group, of order `16 = 2 ^ 4`), used by the witnesses. -/
def gBab (k : Nat) : ZMod 17 := 3 ^ (2 ^ (4 - k))

/-! ## Helper lemmas: bits, logs, lists -/

theorem reverse_bits_len_lt : ∀ (bits i : Nat), reverse_bits_len i bits < 2 ^ bits := by
  intro bits
  induction bits with
  | zero => intro i; simp [reverse_bits_len]
  | succ b ih =>
    intro i
    have h1 : reverse_bits_len (i / 2) b < 2 ^ b := ih (i / 2)
    have h2 : i % 2 ≤ 1 := Nat.le_of_lt_succ (Nat.mod_lt i (by norm_num))
    have : i % 2 * 2 ^ b ≤ 2 ^ b := by
      calc i % 2 * 2 ^ b ≤ 1 * 2 ^ b := Nat.mul_le_mul_right _ h2
        _ = 2 ^ b := by ring
    calc reverse_bits_len i (b + 1) = i % 2 * 2 ^ b + reverse_bits_len (i / 2) b := rfl
      _ < 2 ^ b + 2 ^ b := by omega
      _ = 2 ^ (b + 1) := by ring

theorem reverse_bits_len_zero : ∀ bits, reverse_bits_len 0 bits = 0 := by
  intro bits
  induction bits with
  | zero => rfl
  | succ b ih => simp [reverse_bits_len, ih]

/-- Reversing `j' + d` bits of an index below `2 ^ j'` scales its `j'`-bit
reversal by `2 ^ d`: small indices land in the front of the reversed order. -/
theorem reverse_bits_len_of_lt :
    ∀ (j' d j : Nat), j < 2 ^ j' →
      reverse_bits_len j (j' + d) = 2 ^ d * reverse_bits_len j j' := by
  intro j'
  induction j' with
  | zero =>
    intro d j hj
    interval_cases j
    simp [reverse_bits_len_zero, reverse_bits_len]
  | succ b ih =>
    intro d j hj
    have hdiv : j / 2 < 2 ^ b := by
      have : j < 2 ^ b * 2 := by
        have : (2 : Nat) ^ (b + 1) = 2 ^ b * 2 := by ring
        omega
      omega
    have hstep : b + 1 + d = (b + d) + 1 := by omega
    calc reverse_bits_len j (b + 1 + d)
        = j % 2 * 2 ^ (b + d) + reverse_bits_len (j / 2) (b + d) := by
          rw [hstep]; rfl
      _ = j % 2 * 2 ^ (b + d) + 2 ^ d * reverse_bits_len (j / 2) b := by rw [ih d _ hdiv]
      _ = 2 ^ d * (j % 2 * 2 ^ b + reverse_bits_len (j / 2) b) := by ring
      _ = 2 ^ d * reverse_bits_len j (b + 1) := rfl

theorem log2F_two_pow : ∀ (k fuel : Nat), k ≤ fuel → log2F fuel (2 ^ k) = k := by
  intro k
  induction k with
  | zero =>
    intro fuel _
    cases fuel with
    | zero => rfl
    | succ f => simp [log2F]
  | succ k ih =>
    intro fuel hk
    cases fuel with
    | zero => omega
    | succ f =>
      have hb : ¬ 2 ^ (k + 1) ≤ 1 := by
        have h2 : (2 : Nat) ^ 1 ≤ 2 ^ (k + 1) := Nat.pow_le_pow_right (by norm_num) (by omega)
        norm_num at h2
        omega
      have hdiv : 2 ^ (k + 1) / 2 = 2 ^ k := by
        rw [pow_succ]
        exact Nat.mul_div_cancel _ (by norm_num)
      simp only [log2F, if_neg hb, hdiv]
      rw [ih f (by omega)]

theorem log2Nat_two_pow (k : Nat) : log2Nat (2 ^ k) = k :=
  log2F_two_pow k (2 ^ k) (Nat.le_of_lt (Nat.lt_two_pow k))

theorem length_reverse_slice_index_bits {α : Type} (dflt : α) (l : List α) :
    (reverse_slice_index_bits dflt l).length = l.length := by
  simp [reverse_slice_index_bits]

theorem getD_reverse_slice_index_bits {α : Type} (dflt d' : α) (l : List α) (k j : Nat)
    (hl : l.length = 2 ^ k) (hj : j < 2 ^ k) :
    (reverse_slice_index_bits dflt l).getD j d' = l.getD (reverse_bits_len j k) dflt := by
  have := List.getD_eq_getElem?_getD (reverse_slice_index_bits dflt l) j d'
  rw [this]
  have : (reverse_slice_index_bits dflt l)[j]? =
      some (l.getD (reverse_bits_len j (log2Nat l.length)) dflt) := by
    unfold reverse_slice_index_bits
    rw [List.getElem?_map]
    simp [hl, hj]
  rw [this, hl, log2Nat_two_pow]
  rfl

@[simp] theorem listJoin_nil {α : Type} : listJoin ([] : List (List α)) = [] := rfl

@[simp] theorem listJoin_cons {α : Type} (l : List α) (ls : List (List α)) :
    listJoin (l :: ls) = l ++ listJoin ls := rfl

theorem listJoin_append {α : Type} (a b : List (List α)) :
    listJoin (a ++ b) = listJoin a ++ listJoin b := by
  induction a with
  | nil => simp
  | cons x xs ih => simp [ih]

theorem length_shifted_powers {F : Type} [Monoid F] (base start : F) (n : Nat) :
    (shifted_powers base start n).length = n := by
  simp [shifted_powers]

theorem getD_shifted_powers {F : Type} [Monoid F] (base start dflt : F) (n i : Nat)
    (hi : i < n) :
    (shifted_powers base start n).getD i dflt = start * base ^ i := by
  rw [List.getD_eq_getElem _ _ (by simp [length_shifted_powers, hi])]
  simp [shifted_powers, hi]

/-! ## Claims C5 and C3: the folding strategy -/

theorem shifted_powers_two {F : Type} [Monoid F] (base start : F) :
    shifted_powers base start 2 = [start * base ^ 0, start * base ^ 1] := rfl

theorem reverse_slice_index_bits_pair {α : Type} (dflt a b : α) :
    reverse_slice_index_bits dflt [a, b] = [a, b] := by
  simp [reverse_slice_index_bits, List.range_succ, reverse_bits_len, log2Nat, log2F]

/-- Unfolding `fold_row` to its closed form: with
`s = g(log_height+1) ^ reverse_bits_len index log_height` the two
interpolation nodes are `s` and `s * g 1` (the bit reversal of a two-element
slice is the identity). -/
theorem fold_row_eq {F : Type} [Field F] (g : Nat → F) (index log_height : Nat)
    (beta e0 e1 : F) :
    fold_row g index log_height beta e0 e1 =
      e0 + (beta - g (log_height + 1) ^ reverse_bits_len index log_height) * (e1 - e0) *
        (g (log_height + 1) ^ reverse_bits_len index log_height * g 1 -
          g (log_height + 1) ^ reverse_bits_len index log_height)⁻¹ := by
  simp only [fold_row]
  rw [shifted_powers_two, reverse_slice_index_bits_pair]
  simp

/-- **C5.** For every row index, log-height, fold challenge `beta` and sibling
evaluation pair `(e0, e1)`, `fold_row` returns exactly
`e0 + (beta - x0)/(x1 - x0) * (e1 - e0)`, where `x0` and `x1 = -x0` are the two
coset elements recovered via the bit reversal of the index; both map to the
same element of the half-size coset under squaring. -/
theorem fold_row_interpolation {F : Type} [Field F] (g : Nat → F)
    (index log_height : Nat) (beta e0 e1 x0 x1 : F)
    (hg1 : g 1 = -1)
    (hsq : g (log_height + 1) ^ 2 = g log_height)
    (hx0 : x0 = g (log_height + 1) ^ reverse_bits_len index log_height)
    (hx1 : x1 = -x0) :
    fold_row g index log_height beta e0 e1 = e0 + (beta - x0) / (x1 - x0) * (e1 - e0) ∧
      x0 ^ 2 = g log_height ^ reverse_bits_len index log_height ∧
      x1 ^ 2 = g log_height ^ reverse_bits_len index log_height := by
  have hsqr : x0 ^ 2 = g log_height ^ reverse_bits_len index log_height := by
    rw [hx0, ← pow_mul, pow_mul', hsq]
  refine ⟨?_, hsqr, by rw [hx1, neg_sq]; exact hsqr⟩
  rw [fold_row_eq, hg1, hx1, hx0, div_eq_mul_inv]
  ring_nf

/-- Witness for C5 at a concrete input over `ZMod 17`. -/
theorem fold_row_interpolation_witness :
    gBab 1 = -1 ∧
      (fold_row gBab 3 2 5 7 11 = 7 + ((5 : ZMod 17) - 15) / (2 - 15) * (11 - 7) ∧
        (15 : ZMod 17) ^ 2 = gBab 2 ^ reverse_bits_len 3 2 ∧
        (2 : ZMod 17) ^ 2 = gBab 2 ^ reverse_bits_len 3 2) :=
  ⟨by decide,
    fold_row_interpolation gBab 3 2 5 7 11 15 2 (by decide) (by decide) (by decide) (by decide)⟩

/-- **C3.** On a power-of-two-height vector of sibling pairs, `fold_matrix`
agrees entry by entry with `fold_row` applied to each sibling pair at the
corresponding row index and log-height (the claimed conformance property of
the two folding entry points, up to field embedding). -/
theorem fold_matrix_agrees_fold_row {F : Type} [Field F] (g : Nat → F) (logH : Nat)
    (beta : F) (m : List (F × F)) (j : Nat)
    (hm : m.length = 2 ^ logH) (hj : j < m.length)
    (hg1 : g 1 = -1) (hgne : g (logH + 1) ≠ 0) (h2 : (2 : F) ≠ 0) :
    (fold_matrix g beta m).getD j 0 =
      fold_row g j logH beta (m.getD j (0, 0)).1 (m.getD j (0, 0)).2 := by
  have hj' : j < 2 ^ logH := hm ▸ hj
  have hrev : reverse_bits_len j logH < 2 ^ logH := reverse_bits_len_lt logH j
  rw [fold_row_eq, hg1]
  simp only [fold_matrix]
  rw [hm, log2Nat_two_pow]
  have hlen_sp : (shifted_powers (g (logH + 1))⁻¹ (halveF 1) (2 ^ logH)).length = 2 ^ logH :=
    length_shifted_powers _ _ _
  have hlen_hp :
      (reverse_slice_index_bits 0 (shifted_powers (g (logH + 1))⁻¹ (halveF 1) (2 ^ logH))).length
        = 2 ^ logH := by
    rw [length_reverse_slice_index_bits, hlen_sp]
  have hzip : j < (m.zip (reverse_slice_index_bits 0
      (shifted_powers (g (logH + 1))⁻¹ (halveF 1) (2 ^ logH)))).length := by
    rw [List.length_zip, hm, hlen_hp]
    omega
  have hmap : j < ((m.zip (reverse_slice_index_bits 0
      (shifted_powers (g (logH + 1))⁻¹ (halveF 1) (2 ^ logH)))).map fun rp =>
        halveF (rp.1.1 + rp.1.2) + (rp.1.1 - rp.1.2) * beta * rp.2).length := by
    rw [List.length_map]
    exact hzip
  rw [List.getD_eq_getElem _ _ hmap, List.getElem_map, List.getElem_zip]
  have hhp : ∀ hb : j < (reverse_slice_index_bits 0
      (shifted_powers (g (logH + 1))⁻¹ (halveF 1) (2 ^ logH))).length,
      (reverse_slice_index_bits 0
        (shifted_powers (g (logH + 1))⁻¹ (halveF 1) (2 ^ logH)))[j]
        = halveF 1 * ((g (logH + 1))⁻¹) ^ reverse_bits_len j logH := by
    intro hb
    rw [← List.getD_eq_getElem _ (0 : F)]
    rw [getD_reverse_slice_index_bits 0 0 _ logH j hlen_sp hj']
    exact getD_shifted_powers _ _ _ _ _ hrev
  rw [hhp (by rw [hlen_hp]; exact hj'), List.getD_eq_getElem _ _ hj]
  have hs : g (logH + 1) ^ reverse_bits_len j logH ≠ 0 := pow_ne_zero _ hgne
  rw [inv_pow]
  have hneg : g (logH + 1) ^ reverse_bits_len j logH * -1 -
      g (logH + 1) ^ reverse_bits_len j logH =
        -(2 * g (logH + 1) ^ reverse_bits_len j logH) := by ring
  rw [hneg]
  simp only [halveF]
  field_simp
  ring

/-- Witness for C3 at a concrete input over `ZMod 17`: a vector of 4
evaluations (two sibling pairs) and a fixed challenge. -/
theorem fold_matrix_agrees_fold_row_witness :
    [((1 : ZMod 17), (2 : ZMod 17)), (3, 4)].length = 2 ^ 1 ∧
      (fold_matrix gBab 5 [((1 : ZMod 17), 2), (3, 4)]).getD 1 0 =
        fold_row gBab 1 1 5 ([((1 : ZMod 17), 2), (3, 4)].getD 1 (0, 0)).1
          ([((1 : ZMod 17), 2), (3, 4)].getD 1 (0, 0)).2 :=
  ⟨by decide,
    fold_matrix_agrees_fold_row gBab 1 5 [((1 : ZMod 17), 2), (3, 4)] 1
      (by decide) (by decide) (by decide) (by decide) (by decide)⟩

/-! ## Claim C8: `commit` fails fast on a domain/height mismatch -/

theorem optList_eq_none_iff {α β : Type} (f : α → Option β) (l : List α) :
    optList f l = none ↔ ∃ x ∈ l, f x = none := by
  induction l with
  | nil => simp [optList]
  | cons x xs ih =>
    cases hx : f x with
    | none =>
      simp only [optList, hx]
      exact iff_of_true trivial ⟨x, by simp, hx⟩
    | some y =>
      cases hxs : optList f xs with
      | none =>
        simp only [optList, hx, hxs]
        refine iff_of_true trivial ?_
        obtain ⟨z, hz, hfz⟩ := ih.1 hxs
        exact ⟨z, by simp [hz], hfz⟩
      | some ys =>
        simp only [optList, hx, hxs]
        constructor
        · intro habs; cases habs
        · rintro ⟨z, hz, hfz⟩
          rcases List.mem_cons.1 hz with rfl | hz
          · rw [hfz] at hx; cases hx
          · rw [ih.2 ⟨z, hz, hfz⟩] at hxs; cases hxs

theorem optList_eq_some_of_forall {α β : Type} (f : α → Option β) (h : α → β) (l : List α)
    (hall : ∀ x ∈ l, f x = some (h x)) :
    optList f l = some (l.map h) := by
  induction l with
  | nil => rfl
  | cons x xs ih =>
    have hx : f x = some (h x) := hall x (by simp)
    have ihs := ih fun y hy => hall y (by simp [hy])
    simp [optList, hx, ihs]

/-- **C8.** `commit` fails (panics, modelled by `none`) exactly when some
`(domain, matrix)` pair has `domain.size() != matrix.height()`; under the
precondition that every pair matches, the failure branch is unreachable and
`commit` returns the MMCS commitment of the bit-reversed low-degree
extensions. -/
theorem commit_domain_size {F : Type} [Field F] {Cm PData : Type} (generator : F)
    (log_blowup : Nat) (coset_lde_batch : Mat F → Nat → F → Mat F)
    (mmcs_commit : List (Mat F) → Cm × PData)
    (evaluations : List (TwoAdicDomain F × Mat F)) :
    (commit generator log_blowup coset_lde_batch mmcs_commit evaluations = none ↔
      ∃ dm ∈ evaluations, domSize dm.1 ≠ height dm.2) ∧
    ((∀ dm ∈ evaluations, domSize dm.1 = height dm.2) →
      commit generator log_blowup coset_lde_batch mmcs_commit evaluations =
        some (mmcs_commit (evaluations.map fun dm =>
          bit_reverse_rows (coset_lde_batch dm.2 log_blowup (generator / dm.1.shift))))) := by
  constructor
  · rw [commit, Option.map_eq_none', optList_eq_none_iff]
    constructor
    · rintro ⟨dm, hdm, hif⟩
      refine ⟨dm, hdm, fun hP => ?_⟩
      rw [if_pos hP] at hif
      cases hif
    · rintro ⟨dm, hdm, hP⟩
      exact ⟨dm, hdm, by rw [if_neg hP]⟩
  · intro hall
    rw [commit, optList_eq_some_of_forall _
      (fun dm => bit_reverse_rows (coset_lde_batch dm.2 log_blowup (generator / dm.1.shift)))
      evaluations (fun dm hdm => by rw [if_pos (hall dm hdm)])]
    rfl

/-- Witness for C8: a concrete one-matrix batch over `ZMod 17` whose domain
size matches its height commits successfully. -/
theorem commit_domain_size_witness :
    (∀ dm ∈ [(TwoAdicDomain.mk (1 : ZMod 17) 1, Mat.mk 1 [[1], [2]])],
        domSize dm.1 = height dm.2) ∧
      commit (3 : ZMod 17) 1 (fun m _ _ => m) (fun ms => ((), ms))
          [(TwoAdicDomain.mk (1 : ZMod 17) 1, Mat.mk 1 [[1], [2]])] =
        some (((), [(TwoAdicDomain.mk (1 : ZMod 17) 1, Mat.mk 1 [[1], [2]])].map fun dm =>
          bit_reverse_rows ((fun (m : Mat (ZMod 17)) (_ : Nat) (_ : ZMod 17) => m) dm.2 1
            ((3 : ZMod 17) / dm.1.shift)))) :=
  ⟨by decide,
    (commit_domain_size (3 : ZMod 17) 1 (fun m _ _ => m) (fun ms => ((), ms))
      [(TwoAdicDomain.mk (1 : ZMod 17) 1, Mat.mk 1 [[1], [2]])]).2 (by decide)⟩

/-! ## Claim C9: `verify` observes and delegates -/

theorem foldl_obs_singleton {F : Type} (l : List F) (t : Trace F) :
    l.foldl (fun t y => t ++ [TEvent.obs y]) t = t ++ l.map TEvent.obs := by
  induction l generalizing t with
  | nil => simp
  | cons x xs ih => simp [ih]

theorem foldl_trace_chunks {F α : Type} (u : α → Trace F) (step : Trace F → α → Trace F)
    (hstep : ∀ t a, step t a = t ++ u a) :
    ∀ (l : List α) (t : Trace F), l.foldl step t = t ++ listJoin (l.map u) := by
  intro l
  induction l with
  | nil => intro t; simp
  | cons x xs ih =>
    intro t
    simp only [List.foldl_cons, List.map_cons, listJoin_cons]
    rw [hstep, ih, List.append_assoc]

theorem map_listJoin {α β : Type} (f : α → β) (ls : List (List α)) :
    (listJoin ls).map f = listJoin (ls.map (List.map f)) := by
  induction ls with
  | nil => rfl
  | cons x xs ih => simp [ih]

theorem map_obs_level1 {F : Type} (l : List (F × List F)) :
    (listJoin (l.map fun pv => pv.2)).map (TEvent.obs (F := F)) =
      listJoin (l.map fun pv => pv.2.map TEvent.obs) := by
  induction l with
  | nil => rfl
  | cons x xs ih => simp [ih]

theorem map_obs_level2 {F Dm : Type} (l : List (Dm × List (F × List F))) :
    (listJoin (l.map fun dm => listJoin (dm.2.map fun pv => pv.2))).map
        (TEvent.obs (F := F)) =
      listJoin (l.map fun dm => listJoin (dm.2.map fun pv => pv.2.map TEvent.obs)) := by
  induction l with
  | nil => rfl
  | cons x xs ih => simp [map_obs_level1, ih]

theorem map_obs_level3 {F Cm Dm : Type} (l : List (Cm × List (Dm × List (F × List F)))) :
    (listJoin (l.map fun r => listJoin (r.2.map fun dm =>
        listJoin (dm.2.map fun pv => pv.2)))).map (TEvent.obs (F := F)) =
      listJoin (l.map fun r => listJoin (r.2.map fun dm =>
        listJoin (dm.2.map fun pv => pv.2.map TEvent.obs))) := by
  induction l with
  | nil => rfl
  | cons x xs ih => simp [map_obs_level2, ih]

theorem verifyObsTrace_eq {F Cm Dm : Type}
    (input : List (Cm × List (Dm × List (F × List F)))) (t0 : Trace F) :
    verifyObsTrace input t0 = t0 ++ (flatClaimed input).map TEvent.obs := by
  have h1 : ∀ (pv : F × List F) (t : Trace F),
      pv.2.foldl (fun t y => t ++ [TEvent.obs y]) t = t ++ pv.2.map TEvent.obs :=
    fun pv t => foldl_obs_singleton pv.2 t
  have h2 : ∀ (dm : Dm × List (F × List F)) (t : Trace F),
      dm.2.foldl (fun t pv => pv.2.foldl (fun t y => t ++ [TEvent.obs y]) t) t =
        t ++ listJoin (dm.2.map fun pv => pv.2.map TEvent.obs) := by
    intro dm t
    exact foldl_trace_chunks _ _ (fun t pv => h1 pv t) dm.2 t
  have h3 : ∀ (r : Cm × List (Dm × List (F × List F))) (t : Trace F),
      r.2.foldl (fun t dm =>
          dm.2.foldl (fun t pv => pv.2.foldl (fun t y => t ++ [TEvent.obs y]) t) t) t =
        t ++ listJoin (r.2.map fun dm => listJoin (dm.2.map fun pv => pv.2.map TEvent.obs)) := by
    intro r t
    exact foldl_trace_chunks _ _ (fun t dm => h2 dm t) r.2 t
  have h4 : verifyObsTrace input t0 =
      t0 ++ listJoin (input.map fun r =>
        listJoin (r.2.map fun dm => listJoin (dm.2.map fun pv => pv.2.map TEvent.obs))) := by
    exact foldl_trace_chunks _ _ (fun t r => h3 r t) input t0
  rw [h4, flatClaimed, map_obs_level3]

/-- **C9.** `verify` succeeds exactly when the delegated FRI verifier
accepts, propagates the collaborator's error value unchanged on failure, and
apart from observing the claimed evaluations (in nesting order) performs no
other transcript interaction before delegating: the transcript state passed
to `verify_fri` is exactly the initial trace extended by the observations. -/
theorem verify_delegates {F Cm Dm E : Type}
    (verify_fri : Trace F → List (Cm × List (Dm × List (F × List F))) → Except E Unit)
    (input : List (Cm × List (Dm × List (F × List F)))) (t0 : Trace F) :
    verifyObsTrace input t0 = t0 ++ (flatClaimed input).map TEvent.obs ∧
    (verifyPcs verify_fri input t0 = .ok () ↔
      verify_fri (t0 ++ (flatClaimed input).map TEvent.obs) input = .ok ()) ∧
    (∀ e : E, verifyPcs verify_fri input t0 = .error e ↔
      verify_fri (t0 ++ (flatClaimed input).map TEvent.obs) input = .error e) := by
  have hobs := verifyObsTrace_eq input t0
  refine ⟨hobs, ?_, ?_⟩
  · unfold verifyPcs
    rw [hobs]
    cases h : verify_fri (t0 ++ (flatClaimed input).map TEvent.obs) input with
    | ok u => simp
    | error e => simp
  · intro e
    unfold verifyPcs
    rw [hobs]
    cases h : verify_fri (t0 ++ (flatClaimed input).map TEvent.obs) input with
    | ok u => simp
    | error e' => simp

/-! ## Claim C10: `open` panics on an empty batch -/

theorem reduceMaxDims_eq_none_iff (l : List (Nat × Nat)) :
    reduceMaxDims l = none ↔ l = [] := by
  cases l <;> simp [reduceMaxDims]

theorem length_matDims {F : Type} (mp : MatsPoints F) :
    (matDims mp).length = (allMats mp).length := by
  induction mp with
  | nil => rfl
  | cons r rs ih => simp [matDims, allMats, listJoin_cons] at ih ⊢; omega

/-- **C10.** When the flattened list of matrices across all supplied
commitments is empty, `open` panics (returns `none`) at the
maximum-height/maximum-width reduction, which is only defined (`some`) when
at least one matrix is supplied. -/
theorem open_empty_batch {F : Type} [Field F] [DecidableEq F] {PData : Type}
    (cfg : OpenCfg F) (get_matrices : PData → List (Mat F))
    (data : List (PData × List (List F))) (t0 : Trace F)
    (hempty : allMats (data.map fun dp => (get_matrices dp.1, dp.2)) = []) :
    openPcs cfg get_matrices data t0 = none ∧
      reduceMaxDims (matDims (data.map fun dp => (get_matrices dp.1, dp.2))) = none ∧
      ∀ mp : MatsPoints F, (reduceMaxDims (matDims mp) = none ↔ allMats mp = []) := by
  have hiff : ∀ mp : MatsPoints F, (reduceMaxDims (matDims mp) = none ↔ allMats mp = []) := by
    intro mp
    rw [reduceMaxDims_eq_none_iff, ← List.length_eq_zero, ← List.length_eq_zero,
      length_matDims]
  have hred := (hiff _).2 hempty
  refine ⟨?_, hred, hiff⟩
  unfold openPcs
  simp only [hred]

/-- Witness for C10: the empty input. -/
theorem open_empty_batch_witness :
    allMats (([] : List (List (Mat (ZMod 17)) × List (List (ZMod 17)))).map
        fun dp => (id dp.1, dp.2)) = [] ∧
      openPcs (OpenCfg.mk (3 : ZMod 17) gBab 1 (fun _ _ z _ _ => [z]) (fun _ => 2)) id
        ([] : List (List (Mat (ZMod 17)) × List (List (ZMod 17)))) [] = none :=
  ⟨by decide,
    (open_empty_batch (OpenCfg.mk (3 : ZMod 17) gBab 1 (fun _ _ z _ _ => [z]) (fun _ => 2))
      id [] [] (by decide)).1⟩

/-! ## Claim C1: transcript observe/sample order in `open` and `verify` -/

theorem mapObs_aux {F α β : Type} (f : α → Trace F → β × Trace F) (gf : α → β)
    (hf : α → Trace F)
    (H : ∀ a t, f a t = (gf a, t ++ hf a)) :
    ∀ (l : List α) (acc : List β) (t : Trace F),
      l.foldl (fun acc a => match f a acc.2 with | (b, t') => (acc.1 ++ [b], t')) (acc, t) =
        (acc ++ l.map gf, t ++ listJoin (l.map hf)) := by
  intro l
  induction l with
  | nil => intro acc t; simp
  | cons x xs ih =>
    intro acc t
    rw [List.foldl_cons]
    have hstep : (match f x (acc, t).2 with | (b, t') => ((acc, t).1 ++ [b], t')) =
        (acc ++ [gf x], t ++ hf x) := by
      rw [H]
    rw [hstep, ih]
    simp [List.append_assoc]

theorem mapObs_eq {F α β : Type} (f : α → Trace F → β × Trace F) (gf : α → β)
    (hf : α → Trace F)
    (H : ∀ a t, f a t = (gf a, t ++ hf a)) (l : List α) (t : Trace F) :
    mapObs f l t = (l.map gf, t ++ listJoin (l.map hf)) := by
  unfold mapObs
  rw [mapObs_aux f gf hf H l [] t]
  simp

theorem join_map_obs2 {F : Type} (v : List (List (List F))) :
    (listJoin (listJoin v)).map (TEvent.obs (F := F)) =
      listJoin (v.map fun v1 => listJoin (v1.map (List.map TEvent.obs))) := by
  induction v with
  | nil => rfl
  | cons x xs ih => simp [listJoin_append, map_listJoin, List.map_append, ih]

theorem join_map_obs3 {F : Type} (v : List (List (List (List F)))) :
    (listJoin (listJoin (listJoin v))).map (TEvent.obs (F := F)) =
      listJoin (v.map fun v2 => listJoin (v2.map fun v1 =>
        listJoin (v1.map (List.map TEvent.obs)))) := by
  induction v with
  | nil => rfl
  | cons x xs ih => simp [listJoin_append, join_map_obs2, List.map_append, ih]

theorem evalMatObs_eq {F : Type} [Field F] [DecidableEq F] (cfg : OpenCfg F) (coset : List F)
    (inv_denoms : LinMap F (List F)) (mat : Mat F) (pts : List F) (t : Trace F) :
    evalMatObs cfg coset inv_denoms mat pts t =
      (evalMatPure cfg coset inv_denoms mat pts,
        t ++ listJoin ((evalMatPure cfg coset inv_denoms mat pts).map
          (List.map TEvent.obs))) := by
  simp only [evalMatObs, evalMatPure]
  refine Eq.trans (mapObs_eq _
    (fun z => evalPoint cfg (split_rows mat (height mat >>> cfg.log_blowup)).1
      (coset.take (height mat >>> cfg.log_blowup)) inv_denoms (height mat >>> cfg.log_blowup) z)
    (fun z => (evalPoint cfg (split_rows mat (height mat >>> cfg.log_blowup)).1
      (coset.take (height mat >>> cfg.log_blowup)) inv_denoms
        (height mat >>> cfg.log_blowup) z).map TEvent.obs)
    (fun z t => rfl) pts t) ?_
  simp [List.map_map, Function.comp_def]

theorem evalRoundObs_eq {F : Type} [Field F] [DecidableEq F] (cfg : OpenCfg F) (coset : List F)
    (inv_denoms : LinMap F (List F)) (mats : List (Mat F)) (points : List (List F))
    (t : Trace F) :
    evalRoundObs cfg coset inv_denoms mats points t =
      (evalRoundPure cfg coset inv_denoms mats points,
        t ++ listJoin ((evalRoundPure cfg coset inv_denoms mats points).map fun v1 =>
          listJoin (v1.map (List.map TEvent.obs)))) := by
  simp only [evalRoundObs, evalRoundPure]
  refine Eq.trans (mapObs_eq _
    (fun mp => evalMatPure cfg coset inv_denoms mp.1 mp.2)
    (fun mp => listJoin ((evalMatPure cfg coset inv_denoms mp.1 mp.2).map
      (List.map TEvent.obs)))
    (fun mp t => evalMatObs_eq cfg coset inv_denoms mp.1 mp.2 t) (mats.zip points) t) ?_
  simp [List.map_map, Function.comp_def]

theorem evalAllObs_eq {F : Type} [Field F] [DecidableEq F] (cfg : OpenCfg F) (coset : List F)
    (inv_denoms : LinMap F (List F)) (mp : MatsPoints F) (t : Trace F) :
    evalAllObs cfg coset inv_denoms mp t =
      (evalAllPure cfg coset inv_denoms mp,
        t ++ (flatVals (evalAllPure cfg coset inv_denoms mp)).map TEvent.obs) := by
  have hraw : evalAllObs cfg coset inv_denoms mp t =
      (evalAllPure cfg coset inv_denoms mp,
        t ++ listJoin ((evalAllPure cfg coset inv_denoms mp).map fun v2 =>
          listJoin (v2.map fun v1 => listJoin (v1.map (List.map TEvent.obs))))) := by
    simp only [evalAllObs, evalAllPure]
    refine Eq.trans (mapObs_eq _
      (fun r => evalRoundPure cfg coset inv_denoms r.1 r.2)
      (fun r => listJoin ((evalRoundPure cfg coset inv_denoms r.1 r.2).map fun v1 =>
        listJoin (v1.map (List.map TEvent.obs))))
      (fun r t => evalRoundObs_eq cfg coset inv_denoms r.1 r.2 t) mp t) ?_
    simp [List.map_map, Function.comp_def]
  rw [hraw, flatVals, join_map_obs3]

/-- **C1.** In `open`, each opened evaluation is observed on the transcript
in nesting order (outer commitment, inner matrix, inner point, inner
column), and `alpha` is sampled only after every evaluation has been
observed; `verify` observes the claimed evaluations in exactly the same
order before delegating, so for identical inputs (the claimed evaluations
flatten to the prover's opened values) the two transcripts agree up to the
alpha sample. -/
theorem open_transcript_order {F : Type} [Field F] [DecidableEq F] {Cm Dm : Type}
    (cfg : OpenCfg F) (mp : MatsPoints F) (gmh gmw : Nat) (t0 : Trace F)
    (claimed : List (Cm × List (Dm × List (F × List F))))
    (hsame : flatClaimed claimed = flatVals (openBody cfg mp gmh gmw t0).opened_values) :
    (openBody cfg mp gmh gmw t0).trace_at_alpha =
        t0 ++ (flatVals (openBody cfg mp gmh gmw t0).opened_values).map TEvent.obs
          ++ [TEvent.sample] ∧
      verifyObsTrace claimed t0 =
        t0 ++ (flatVals (openBody cfg mp gmh gmw t0).opened_values).map TEvent.obs ∧
      (openBody cfg mp gmh gmw t0).trace_at_alpha =
        verifyObsTrace claimed t0 ++ [TEvent.sample] := by
  have hbody :
      (openBody cfg mp gmh gmw t0).opened_values =
        (evalAllObs cfg
          (reverse_slice_index_bits 0 (cosetPoints cfg.gen cfg.g (log2Nat gmh)))
          (compute_inverse_denominators mp
            (reverse_slice_index_bits 0 (cosetPoints cfg.gen cfg.g (log2Nat gmh)))) mp t0).1 ∧
      (openBody cfg mp gmh gmw t0).trace_at_alpha =
        (evalAllObs cfg
          (reverse_slice_index_bits 0 (cosetPoints cfg.gen cfg.g (log2Nat gmh)))
          (compute_inverse_denominators mp
            (reverse_slice_index_bits 0 (cosetPoints cfg.gen cfg.g (log2Nat gmh)))) mp t0).2
          ++ [TEvent.sample] := by
    constructor <;> rfl
  obtain ⟨hov, htr⟩ := hbody
  rw [evalAllObs_eq] at hov htr
  have h1 : (openBody cfg mp gmh gmw t0).trace_at_alpha =
      t0 ++ (flatVals (openBody cfg mp gmh gmw t0).opened_values).map TEvent.obs
        ++ [TEvent.sample] := by
    rw [htr, hov]
  have h2 : verifyObsTrace claimed t0 =
      t0 ++ (flatVals (openBody cfg mp gmh gmw t0).opened_values).map TEvent.obs := by
    rw [verifyObsTrace_eq, hsame]
  exact ⟨h1, h2, by rw [h1, h2]⟩

/-- Witness for C1: a one-commitment, one-matrix, one-point batch over
`ZMod 17`, with the verifier given exactly the prover's opened values. -/
theorem open_transcript_order_witness :
    flatClaimed [(((), ()).1, [(((), ()).1, [((5 : ZMod 17), [(5 : ZMod 17)])])])] =
        flatVals (openBody
          (OpenCfg.mk (3 : ZMod 17) gBab 1 (fun _ _ z _ _ => [z]) (fun _ => 2))
          [([Mat.mk 1 [[1], [2]]], [[(5 : ZMod 17)]])] 2 1 []).opened_values ∧
      (openBody (OpenCfg.mk (3 : ZMod 17) gBab 1 (fun _ _ z _ _ => [z]) (fun _ => 2))
          [([Mat.mk 1 [[1], [2]]], [[(5 : ZMod 17)]])] 2 1 []).trace_at_alpha =
        verifyObsTrace [(((), ()).1, [(((), ()).1, [((5 : ZMod 17), [(5 : ZMod 17)])])])] []
          ++ [TEvent.sample] :=
  ⟨by decide,
    (open_transcript_order
      (OpenCfg.mk (3 : ZMod 17) gBab 1 (fun _ _ z _ _ => [z]) (fun _ => 2))
      [([Mat.mk 1 [[1], [2]]], [[(5 : ZMod 17)]])] 2 1 []
      [(((), ()).1, [(((), ()).1, [((5 : ZMod 17), [(5 : ZMod 17)])])])]
      (by decide)).2.2⟩

/-! ## Claim C2: the alpha-power offset discipline of the accumulation -/

theorem accumPointStep_foldl {F : Type} [Field F] [DecidableEq F] (alpha : F)
    (alpha_powers : List F) (w : Nat) (matc : List F) (invd : LinMap F (List F)) :
    ∀ (pzs : List (F × List F)) (n : Nat) (acc : List F),
      pzs.foldl (accumPointStep alpha alpha_powers w matc invd) (n, acc) =
        accumPointsFrom alpha alpha_powers w matc invd n acc pzs := by
  intro pzs
  induction pzs with
  | nil => intro n acc; rfl
  | cons zo rest ih =>
    intro n acc
    rw [List.foldl_cons]
    exact ih (n + w)
      (forEachZip (fun mr a iv => a + alpha ^ n * (dot_product alpha_powers zo.2 - mr) * iv)
        matc acc ((lmGet invd zo.1).getD []))

theorem accumPointsFrom_count {F : Type} [Field F] [DecidableEq F] (alpha : F)
    (alpha_powers : List F) (w : Nat) (matc : List F) (invd : LinMap F (List F)) :
    ∀ (pzs : List (F × List F)) (n : Nat) (acc : List F),
      (accumPointsFrom alpha alpha_powers w matc invd n acc pzs).1 = n + pzs.length * w := by
  intro pzs
  induction pzs with
  | nil => intro n acc; simp [accumPointsFrom]
  | cons zo rest ih =>
    intro n acc
    rw [accumPointsFrom, ih]
    simp [List.length_cons]
    ring

/-- **C2 (amended).** In `open`'s quotient accumulation, the contribution of
each opening point of a matrix is scaled by `alpha ^ offset`, where `offset`
is the running count `num_reduced[log_height]` of (column, point) pairs
already folded at that height, and this counter is incremented by the
matrix's width once per opening point (so it advances by
`width * #points` per matrix, not by `width` once per matrix); no other
height's counter or accumulator is touched. -/
theorem accumMat_per_point_offsets {F : Type} [Field F] [DecidableEq F]
    (alpha : F) (alpha_powers : List F) (inv_denoms : LinMap F (List F))
    (st : AccState F) (mat : Mat F) (pts : List F) (ops : List (List F))
    (hlen : pts.length = ops.length) :
    (accumMat alpha alpha_powers inv_denoms st mat pts ops).nr (log2Nat (height mat)) =
        st.nr (log2Nat (height mat)) + pts.length * mat.width ∧
      (∀ x, x ≠ log2Nat (height mat) →
        (accumMat alpha alpha_powers inv_denoms st mat pts ops).nr x = st.nr x ∧
        (accumMat alpha alpha_powers inv_denoms st mat pts ops).ro x = st.ro x) ∧
      (accumMat alpha alpha_powers inv_denoms st mat pts ops).ro (log2Nat (height mat)) =
        some (accumPointsFrom alpha alpha_powers mat.width
          (mat.rows.map fun row => dot_product alpha_powers row) inv_denoms
          (st.nr (log2Nat (height mat)))
          ((st.ro (log2Nat (height mat))).getD (List.replicate (height mat) 0))
          (pts.zip ops)).2 := by
  have hzlen : (pts.zip ops).length = pts.length := by
    rw [List.length_zip, hlen, Nat.min_self]
  refine ⟨?_, ?_, ?_⟩
  · show (if log2Nat (height mat) = log2Nat (height mat) then _ else _) = _
    rw [if_pos rfl, accumPointStep_foldl, accumPointsFrom_count, hzlen]
  · intro x hx
    constructor
    · show (if x = log2Nat (height mat) then _ else _) = _
      rw [if_neg hx]
    · show (if x = log2Nat (height mat) then _ else _) = _
      rw [if_neg hx]
  · show (if log2Nat (height mat) = log2Nat (height mat) then _ else _) = _
    rw [if_pos rfl, accumPointStep_foldl]

/-- Counterexample to C2 as stated: over `ZMod 17`, a single width-1,
height-1 matrix opened at the two points `4` and `5` (claimed value `6` at
both).  The code advances `num_reduced[0]` to `2` (once per point), not to
`1` (once per matrix as the claim states), and scales the second point's
contribution by `alpha ^ 1`, producing the accumulator `[15]` where the
claimed once-per-matrix discipline (`accumMatClaimC2`, modelled from the
spec's words) produces `[10]`. -/
theorem accumMat_claimC2_counterexample :
    (accumMat (2 : ZMod 17) [1] [(4, [1]), (5, [1])]
        (AccState.mk (fun _ => 0) (fun _ => none)) (Mat.mk 1 [[1]]) [4, 5] [[6], [6]]).nr 0
        = 2 ∧
      (accumMatClaimC2 (2 : ZMod 17) [1] [(4, [1]), (5, [1])]
        (AccState.mk (fun _ => 0) (fun _ => none)) (Mat.mk 1 [[1]]) [4, 5] [[6], [6]]).nr 0
        = 1 ∧
      (accumMat (2 : ZMod 17) [1] [(4, [1]), (5, [1])]
        (AccState.mk (fun _ => 0) (fun _ => none)) (Mat.mk 1 [[1]]) [4, 5] [[6], [6]]).ro 0
        = some [15] ∧
      (accumMatClaimC2 (2 : ZMod 17) [1] [(4, [1]), (5, [1])]
        (AccState.mk (fun _ => 0) (fun _ => none)) (Mat.mk 1 [[1]]) [4, 5] [[6], [6]]).ro 0
        = some [10] :=
  ⟨by decide, by decide, by decide, by decide⟩

/-- Witness for the amended C2 at the counterexample's input. -/
theorem accumMat_per_point_offsets_witness :
    ([(4 : ZMod 17), 5].length = [[(6 : ZMod 17)], [6]].length) ∧
      (accumMat (2 : ZMod 17) [1] [(4, [1]), (5, [1])]
          (AccState.mk (fun _ => 0) (fun _ => none)) (Mat.mk 1 [[1]]) [4, 5] [[6], [6]]).nr
          (log2Nat (height (Mat.mk 1 [[(1 : ZMod 17)]]))) =
        (AccState.mk (fun _ => (0 : Nat)) (fun _ => (none : Option (List (ZMod 17))))).nr
          (log2Nat (height (Mat.mk 1 [[(1 : ZMod 17)]]))) +
          [(4 : ZMod 17), 5].length * (Mat.mk 1 [[(1 : ZMod 17)]]).width :=
  ⟨by decide,
    (accumMat_per_point_offsets (2 : ZMod 17) [1] [(4, [1]), (5, [1])]
      (AccState.mk (fun _ => 0) (fun _ => none)) (Mat.mk 1 [[1]]) [4, 5] [[6], [6]]
      (by decide)).1⟩

/-! ## Claim C7: one accumulator per distinct height present in the batch -/

theorem foldl_listJoin {α β : Type} (f : β → α → β) :
    ∀ (ls : List (List α)) (init : β),
      (listJoin ls).foldl f init = ls.foldl (fun s l => l.foldl f s) init := by
  intro ls
  induction ls with
  | nil => intro init; rfl
  | cons x xs ih => intro init; simp [listJoin_cons, List.foldl_append, ih]

theorem accumAll_eq_triples {F : Type} [Field F] [DecidableEq F] (alpha : F)
    (alpha_powers : List F) (inv_denoms : LinMap F (List F)) (mp : MatsPoints F)
    (vals : List (List (List (List F)))) :
    accumAll alpha alpha_powers inv_denoms mp vals =
      (matTriples mp vals).foldl
        (fun st t => accumMat alpha alpha_powers inv_denoms st t.1 t.2.1 t.2.2)
        ⟨fun _ => 0, fun _ => none⟩ := by
  unfold accumAll matTriples accumRound
  rw [foldl_listJoin, List.foldl_map]

theorem length_forEachZip {α β γ : Type} (f : α → β → γ → β) :
    ∀ (a : List α) (b : List β) (c : List γ), (forEachZip f a b c).length = b.length := by
  intro a
  induction a with
  | nil => intro b c; cases b <;> cases c <;> simp [forEachZip]
  | cons x xs ih =>
    intro b c
    cases b with
    | nil => cases c <;> simp [forEachZip]
    | cons y ys => cases c <;> simp [forEachZip, ih]

theorem foldl_accumPointStep_length {F : Type} [Field F] [DecidableEq F] (alpha : F)
    (ap : List F) (w : Nat) (matc : List F) (invd : LinMap F (List F)) :
    ∀ (pzs : List (F × List F)) (n : Nat) (acc : List F),
      ((pzs.foldl (accumPointStep alpha ap w matc invd) (n, acc)).2).length = acc.length := by
  intro pzs
  induction pzs with
  | nil => intro n acc; rfl
  | cons zo rest ih =>
    intro n acc
    rw [List.foldl_cons]
    exact (ih (n + w) _).trans (length_forEachZip _ _ _ _)

theorem accumMat_ro_some {F : Type} [Field F] [DecidableEq F] (alpha : F) (ap : List F)
    (invd : LinMap F (List F)) (st : AccState F) (mat : Mat F) (pts : List F)
    (ops : List (List F)) (lh : Nat) :
    (accumMat alpha ap invd st mat pts ops).ro lh =
      if lh = log2Nat (height mat)
      then some ((pts.zip ops).foldl
        (accumPointStep alpha ap mat.width (mat.rows.map fun row => dot_product ap row) invd)
        (st.nr (log2Nat (height mat)),
         (st.ro (log2Nat (height mat))).getD (List.replicate (height mat) 0))).2
      else st.ro lh := rfl

theorem accumTriples_ro_isSome {F : Type} [Field F] [DecidableEq F] (alpha : F)
    (ap : List F) (invd : LinMap F (List F)) :
    ∀ (ts : List (Mat F × List F × List (List F))) (st : AccState F) (lh : Nat),
      ((ts.foldl (fun st t => accumMat alpha ap invd st t.1 t.2.1 t.2.2) st).ro lh).isSome ↔
        ((st.ro lh).isSome ∨ ∃ t ∈ ts, lh = log2Nat (height t.1)) := by
  intro ts
  induction ts with
  | nil => intro st lh; simp
  | cons t ts ih =>
    intro st lh
    rw [List.foldl_cons, ih]
    have hone : ((accumMat alpha ap invd st t.1 t.2.1 t.2.2).ro lh).isSome ↔
        (lh = log2Nat (height t.1) ∨ (st.ro lh).isSome) := by
      rw [accumMat_ro_some]
      by_cases h : lh = log2Nat (height t.1) <;> simp [h]
    rw [hone]
    simp only [List.mem_cons]
    constructor
    · rintro ((h | h) | ⟨t', ht', hlh⟩)
      · exact Or.inr ⟨t, Or.inl rfl, h⟩
      · exact Or.inl h
      · exact Or.inr ⟨t', Or.inr ht', hlh⟩
    · rintro (h | ⟨t', ht' | ht', hlh⟩)
      · exact Or.inl (Or.inr h)
      · exact Or.inl (Or.inl (ht' ▸ hlh))
      · exact Or.inr ⟨t', ht', hlh⟩

theorem accumMat_ro_length {F : Type} [Field F] [DecidableEq F] (alpha : F) (ap : List F)
    (invd : LinMap F (List F)) (st : AccState F) (mat : Mat F) (pts : List F)
    (ops : List (List F))
    (hst : ∀ lh v, st.ro lh = some v → v.length = 2 ^ lh)
    (hpow : 2 ^ log2Nat (height mat) = height mat) :
    ∀ lh v, (accumMat alpha ap invd st mat pts ops).ro lh = some v → v.length = 2 ^ lh := by
  intro lh v hv
  rw [accumMat_ro_some] at hv
  by_cases h : lh = log2Nat (height mat)
  · rw [if_pos h] at hv
    have hv' := Option.some.inj hv
    subst hv'
    rw [foldl_accumPointStep_length]
    cases hro : st.ro (log2Nat (height mat)) with
    | none =>
      rw [Option.getD_none, List.length_replicate, h]
      exact hpow.symm
    | some old =>
      rw [Option.getD_some, h]
      exact hst _ _ hro
  · rw [if_neg h] at hv
    exact hst lh v hv

theorem accumTriples_ro_length {F : Type} [Field F] [DecidableEq F] (alpha : F)
    (ap : List F) (invd : LinMap F (List F)) :
    ∀ (ts : List (Mat F × List F × List (List F))) (st : AccState F),
      (∀ lh v, st.ro lh = some v → v.length = 2 ^ lh) →
      (∀ t ∈ ts, 2 ^ log2Nat (height t.1) = height t.1) →
      ∀ lh v, ((ts.foldl (fun st t => accumMat alpha ap invd st t.1 t.2.1 t.2.2) st).ro lh) =
          some v → v.length = 2 ^ lh := by
  intro ts
  induction ts with
  | nil => intro st hst _; exact hst
  | cons t ts ih =>
    intro st hst hpow
    rw [List.foldl_cons]
    exact ih _ (accumMat_ro_length alpha ap invd st t.1 t.2.1 t.2.2 hst
        (hpow t (by simp))) (fun t' ht' => hpow t' (by simp [ht']))

theorem zip3_map_fst {α β γ : Type} (a : List α) (b : List β) (c : List γ)
    (hb : a.length ≤ b.length) (hc : a.length ≤ c.length) :
    (zip3 a b c).map Prod.fst = a := by
  unfold zip3
  apply List.map_fst_zip
  rw [List.length_zip]
  omega

theorem matTriples_fst {F : Type} (mp : MatsPoints F) (vals : List (List (List (List F))))
    (hshape : List.Forall₂ (fun (r : List (Mat F) × List (List F)) v =>
      r.2.length = r.1.length ∧ v.length = r.1.length) mp vals) :
    (matTriples mp vals).map Prod.fst = allMats mp := by
  induction hshape with
  | nil => rfl
  | @cons r v rs vs hpair hrest ih =>
    unfold matTriples allMats at ih ⊢
    rw [List.zip_cons_cons, List.map_cons, listJoin_cons, List.map_append, List.map_cons,
      listJoin_cons, zip3_map_fst _ _ _ (le_of_eq hpair.1.symm) (le_of_eq hpair.2.symm), ih]

theorem evalAllPure_shape {F : Type} [Field F] [DecidableEq F] (cfg : OpenCfg F)
    (coset : List F) (invd : LinMap F (List F)) (mp : MatsPoints F)
    (hmp : ∀ r ∈ mp, (r.2 : List (List F)).length = r.1.length) :
    List.Forall₂ (fun (r : List (Mat F) × List (List F)) v =>
      r.2.length = r.1.length ∧ v.length = r.1.length) mp (evalAllPure cfg coset invd mp) := by
  induction mp with
  | nil => exact List.Forall₂.nil
  | cons r rs ih =>
    refine List.Forall₂.cons ⟨hmp r (by simp), ?_⟩ (ih fun r' hr' => hmp r' (by simp [hr']))
    simp [evalRoundPure, List.length_zip, hmp r (by simp)]

/-- **C7.** Throughout `open`, the accumulator map holds exactly one vector
per distinct log-height present among the matrices of the batch (lazily
created, zero-initialized at the full matrix height `2 ^ lh`), and no vector
exists for a log-height at which no matrix occurs; equivalently, phrased via
the truncated matrices (heights shifted down by the blow-up), a vector
exists at `l + log_blowup` exactly when some matrix truncates to log-height
`l`. -/
theorem open_reduced_openings_invariant {F : Type} [Field F] [DecidableEq F]
    (cfg : OpenCfg F) (mp : MatsPoints F) (gmh gmw : Nat) (t0 : Trace F)
    (hmp : ∀ r ∈ mp, (r.2 : List (List F)).length = r.1.length)
    (hpow : ∀ m ∈ allMats mp, 2 ^ log2Nat (height m) = height m) :
    (∀ lh, ((openBody cfg mp gmh gmw t0).reduced_openings lh).isSome ↔
        ∃ m ∈ allMats mp, lh = log2Nat (height m)) ∧
      (∀ lh v, (openBody cfg mp gmh gmw t0).reduced_openings lh = some v →
        v.length = 2 ^ lh) ∧
      (∀ lb : Nat, (∀ m ∈ allMats mp, lb ≤ log2Nat (height m)) →
        ∀ l, ((openBody cfg mp gmh gmw t0).reduced_openings (l + lb)).isSome ↔
          ∃ m ∈ allMats mp, l = log2Nat (height m >>> lb)) := by
  set coset := reverse_slice_index_bits 0 (cosetPoints cfg.gen cfg.g (log2Nat gmh)) with hco
  set invd := compute_inverse_denominators mp coset with hinvd
  set alpha := cfg.sampleF (evalAllObs cfg coset invd mp t0).2 with halpha
  set ap := (List.range gmw).map fun i => alpha ^ i with hap
  have hro : (openBody cfg mp gmh gmw t0).reduced_openings =
      (accumAll alpha ap invd mp (evalAllObs cfg coset invd mp t0).1).ro := rfl
  have hvals : (evalAllObs cfg coset invd mp t0).1 = evalAllPure cfg coset invd mp := by
    rw [evalAllObs_eq]
  have hshape := evalAllPure_shape cfg coset invd mp hmp
  have hfst : (matTriples mp (evalAllPure cfg coset invd mp)).map Prod.fst = allMats mp :=
    matTriples_fst mp _ hshape
  have hsome : ∀ lh, ((openBody cfg mp gmh gmw t0).reduced_openings lh).isSome ↔
      ∃ m ∈ allMats mp, lh = log2Nat (height m) := by
    intro lh
    rw [hro, hvals, accumAll_eq_triples, accumTriples_ro_isSome]
    simp only [Option.isSome_none, Bool.false_eq_true, false_or]
    rw [← hfst]
    constructor
    · rintro ⟨t, ht, hlh⟩
      exact ⟨t.1, List.mem_map_of_mem _ ht, hlh⟩
    · rintro ⟨m, hm, hlh⟩
      obtain ⟨t, ht, rfl⟩ := List.mem_map.1 hm
      exact ⟨t, ht, hlh⟩
  have hlen : ∀ lh v, (openBody cfg mp gmh gmw t0).reduced_openings lh = some v →
      v.length = 2 ^ lh := by
    intro lh v hv
    rw [hro, hvals, accumAll_eq_triples] at hv
    refine accumTriples_ro_length alpha ap invd _ _ (by intro lh' v' h; cases h) ?_ lh v hv
    intro t ht
    have : t.1 ∈ allMats mp := by
      rw [← hfst]
      exact List.mem_map_of_mem _ ht
    exact hpow t.1 this
  refine ⟨hsome, hlen, ?_⟩
  intro lb hlb l
  rw [hsome]
  constructor
  · rintro ⟨m, hm, hlh⟩
    refine ⟨m, hm, ?_⟩
    have he := hpow m hm
    have hlbm := hlb m hm
    rw [Nat.shiftRight_eq_div_pow, ← he, Nat.pow_div hlbm (by norm_num), log2Nat_two_pow]
    omega
  · rintro ⟨m, hm, hlh⟩
    refine ⟨m, hm, ?_⟩
    have he := hpow m hm
    have hlbm := hlb m hm
    rw [Nat.shiftRight_eq_div_pow, ← he, Nat.pow_div hlbm (by norm_num), log2Nat_two_pow]
      at hlh
    omega

/-- Witness for C7: one commitment with matrices of heights 4 and 2 over
`ZMod 17`; accumulators exist exactly at log-heights 2 and 1. -/
theorem open_reduced_openings_invariant_witness :
    (∀ r ∈ [([Mat.mk 1 [[1], [2], [3], [4]], Mat.mk 1 [[5], [6]]],
        [[(7 : ZMod 17)], [7]])], (r.2 : List (List (ZMod 17))).length = r.1.length) ∧
      (((openBody (OpenCfg.mk (3 : ZMod 17) gBab 1 (fun _ _ z _ _ => [z]) (fun _ => 2))
          [([Mat.mk 1 [[1], [2], [3], [4]], Mat.mk 1 [[5], [6]]],
            [[(7 : ZMod 17)], [7]])] 4 1 []).reduced_openings 2).isSome ↔
        ∃ m ∈ allMats [([Mat.mk 1 [[(1 : ZMod 17)], [2], [3], [4]], Mat.mk 1 [[5], [6]]],
          [[(7 : ZMod 17)], [7]])], 2 = log2Nat (height m)) :=
  ⟨by decide,
    (open_reduced_openings_invariant
      (OpenCfg.mk (3 : ZMod 17) gBab 1 (fun _ _ z _ _ => [z]) (fun _ => 2))
      [([Mat.mk 1 [[1], [2], [3], [4]], Mat.mk 1 [[5], [6]]], [[(7 : ZMod 17)], [7]])]
      4 1 [] (by decide) (by decide)).1 2⟩

/-! ## Claim C4: truncation to the minimal height -/

/-- Counterexample to C4 as stated: over `ZMod 17` with blow-up `1`, a
height-2 matrix truncates to 1 row for evaluation, yet the combined quotient
vector built by `open` has the full length 2 (one entry per committed row,
not per truncated row), and the matrix compression feeding the quotient
consumes both full rows (`[1, 2]`), so more than the truncated (minimal)
evaluation length participates in the combined-quotient construction. -/
theorem open_truncation_counterexample :
    ((openBody (OpenCfg.mk (3 : ZMod 17) gBab 1 (fun _ _ z _ _ => [z]) (fun _ => 2))
        [([Mat.mk 1 [[1], [2]]], [[(5 : ZMod 17)]])] 2 1 []).reduced_openings 1).map
        List.length = some 2 ∧
      height (Mat.mk 1 [[(1 : ZMod 17)], [2]]) >>> 1 = 1 ∧
      ¬ ((openBody (OpenCfg.mk (3 : ZMod 17) gBab 1 (fun _ _ z _ _ => [z]) (fun _ => 2))
        [([Mat.mk 1 [[1], [2]]], [[(5 : ZMod 17)]])] 2 1 []).reduced_openings 1).map
        List.length = some (height (Mat.mk 1 [[(1 : ZMod 17)], [2]]) >>> 1) ∧
      (Mat.mk 1 [[(1 : ZMod 17)], [2]]).rows.map (fun row => dot_product [1] row) = [1, 2] :=
  ⟨by decide, by decide, by decide, by decide⟩

/-- **C4 (amended).** In `open`, every matrix is restricted to its first
`height >> log_blowup` rows before Barycentric evaluation: the interpolation
collaborator receives the truncated matrix, the canonical generator-based
bit-reversed coset truncated to the same length (never a matrix-specific
shift), and the inverse denominators truncated to the same length.  The
combined-quotient construction, in contrast, runs at the *full* committed
height of the matrix: its accumulator vector is allocated with `mat.height()`
entries and the row compression consumes every row of the matrix. -/
theorem open_truncation_amended {F : Type} [Field F] [DecidableEq F] (cfg : OpenCfg F)
    (mp : MatsPoints F) (gmh gmw : Nat) (t0 : Trace F)
    (r i j : Nat) (mats : List (Mat F)) (points : List (List F)) (mat : Mat F)
    (pts : List F) (z : F)
    (hr : mp[r]? = some (mats, points))
    (hmi : mats[i]? = some mat) (hpi : points[i]? = some pts)
    (hj : pts[j]? = some z) :
    (∃ vr vi, (openBody cfg mp gmh gmw t0).opened_values[r]? = some vr ∧
        vr[i]? = some vi ∧
        vi[j]? = some (cfg.interp
          (split_rows mat (height mat >>> cfg.log_blowup)).1 cfg.gen z
          ((reverse_slice_index_bits 0 (cosetPoints cfg.gen cfg.g (log2Nat gmh))).take
            (height mat >>> cfg.log_blowup))
          (((lmGet (compute_inverse_denominators mp
              (reverse_slice_index_bits 0 (cosetPoints cfg.gen cfg.g (log2Nat gmh)))) z).getD
            []).take (height mat >>> cfg.log_blowup)))) ∧
      (∀ (alpha : F) (ap : List F) (invd : LinMap F (List F)) (st : AccState F)
          (pts' : List F) (ops' : List (List F)),
        st.ro (log2Nat (height mat)) = none →
        ∃ v, (accumMat alpha ap invd st mat pts' ops').ro (log2Nat (height mat)) = some v ∧
          v.length = height mat) ∧
      (∀ ap : List F, (mat.rows.map fun row => dot_product ap row).length = height mat) := by
  refine ⟨?_, ?_, ?_⟩
  · set coset := reverse_slice_index_bits 0 (cosetPoints cfg.gen cfg.g (log2Nat gmh)) with hco
    set invd := compute_inverse_denominators mp coset with hinvd
    have hov : (openBody cfg mp gmh gmw t0).opened_values =
        evalAllPure cfg coset invd mp := by
      have : (openBody cfg mp gmh gmw t0).opened_values =
          (evalAllObs cfg coset invd mp t0).1 := rfl
      rw [this, evalAllObs_eq]
    refine ⟨evalRoundPure cfg coset invd mats points,
      evalMatPure cfg coset invd mat pts, ?_, ?_, ?_⟩
    · rw [hov, evalAllPure, List.getElem?_map, hr]
      rfl
    · rw [evalRoundPure, List.getElem?_map]
      have hzip : (mats.zip points)[i]? = some (mat, pts) := by
        rw [List.getElem?_zip_eq_some]
        exact ⟨hmi, hpi⟩
      rw [hzip]
      rfl
    · rw [evalMatPure, List.getElem?_map, hj]
      rfl
  · intro alpha ap invd st pts' ops' hnone
    refine ⟨_, accumMat_ro_some alpha ap invd st mat pts' ops' (log2Nat (height mat)) |>.trans
      (if_pos rfl), ?_⟩
    rw [foldl_accumPointStep_length, hnone, Option.getD_none, List.length_replicate]
  · intro ap
    simp [height]

/-- Witness for the amended C4 at a concrete input. -/
theorem open_truncation_amended_witness :
    ([([Mat.mk 1 [[(1 : ZMod 17)], [2]]], [[(5 : ZMod 17)]])][0]? =
        some ([Mat.mk 1 [[(1 : ZMod 17)], [2]]], [[(5 : ZMod 17)]])) ∧
      ∀ ap : List (ZMod 17),
        ((Mat.mk 1 [[(1 : ZMod 17)], [2]]).rows.map fun row => dot_product ap row).length =
          height (Mat.mk 1 [[(1 : ZMod 17)], [2]]) :=
  ⟨by decide,
    (open_truncation_amended
      (OpenCfg.mk (3 : ZMod 17) gBab 1 (fun _ _ z _ _ => [z]) (fun _ => 2))
      [([Mat.mk 1 [[1], [2]]], [[(5 : ZMod 17)]])] 2 1 [] 0 0 0
      [Mat.mk 1 [[(1 : ZMod 17)], [2]]] [[(5 : ZMod 17)]] (Mat.mk 1 [[(1 : ZMod 17)], [2]])
      [(5 : ZMod 17)] 5 (by decide) (by decide) (by decide) (by decide)).2.2⟩

/-! ## Claim C6: `compute_inverse_denominators` -/

theorem omax2_assoc (a b c : Option Nat) : omax2 (omax2 a b) c = omax2 a (omax2 b c) := by
  cases a <;> cases b <;> cases c <;> simp [omax2, max_assoc]

theorem max_log_height_foldl {F : Type} [DecidableEq F] (mp : MatsPoints F) :
    max_log_height_for_point mp =
      (pointPairs mp).foldl (fun m p => updateMaxLh m p.1 p.2) [] := by
  unfold max_log_height_for_point pointPairs
  simp only [foldl_listJoin, List.foldl_map]

theorem lmGet_updateMaxLh {F : Type} [DecidableEq F] :
    ∀ (m : LinMap F Nat) (z' : F) (lh : Nat) (z : F),
      lmGet (updateMaxLh m z' lh) z =
        if z = z' then omax2 (lmGet m z) (some lh) else lmGet m z := by
  intro m
  induction m with
  | nil =>
    intro z' lh z
    by_cases h : z = z'
    · simp [updateMaxLh, lmGet, h, omax2]
    · have h' : ¬ z' = z := fun hh => h hh.symm
      simp [updateMaxLh, lmGet, h, h']
  | cons p ps ih =>
    intro z' lh z
    simp only [updateMaxLh]
    by_cases hp : p.1 = z'
    · rw [if_pos hp]
      by_cases hz : p.1 = z
      · have hzz' : z = z' := by rw [← hz, hp]
        rw [if_pos hzz']
        show (if p.1 = z then some (max p.2 lh) else lmGet ps z) = _
        rw [if_pos hz]
        show _ = omax2 (if p.1 = z then some p.2 else lmGet ps z) (some lh)
        rw [if_pos hz]
        rfl
      · have hzz' : ¬ z = z' := fun h => hz (hp.trans h.symm)
        rw [if_neg hzz']
        show (if p.1 = z then some (max p.2 lh) else lmGet ps z) = _
        rw [if_neg hz]
        show _ = (if p.1 = z then some p.2 else lmGet ps z)
        rw [if_neg hz]
    · rw [if_neg hp]
      by_cases hz : p.1 = z
      · have hzz' : ¬ z = z' := fun h => hp (hz.trans h)
        rw [if_neg hzz']
        show (if p.1 = z then some p.2 else lmGet (updateMaxLh ps z' lh) z) = _
        rw [if_pos hz]
        show _ = (if p.1 = z then some p.2 else lmGet ps z)
        rw [if_pos hz]
      · show (if p.1 = z then some p.2 else lmGet (updateMaxLh ps z' lh) z) = _
        rw [if_neg hz, ih]
        by_cases hzz' : z = z'
        · rw [if_pos hzz', if_pos hzz']
          show _ = omax2 (if p.1 = z then some p.2 else lmGet ps z) (some lh)
          rw [if_neg hz]
        · rw [if_neg hzz', if_neg hzz']
          show _ = (if p.1 = z then some p.2 else lmGet ps z)
          rw [if_neg hz]

theorem lmGet_foldl_updateMaxLh {F : Type} [DecidableEq F] :
    ∀ (ps : List (F × Nat)) (m : LinMap F Nat) (z : F),
      lmGet (ps.foldl (fun m p => updateMaxLh m p.1 p.2) m) z =
        omax2 (lmGet m z) (pointMaxLh ps z) := by
  intro ps
  induction ps with
  | nil =>
    intro m z
    show lmGet m z = omax2 (lmGet m z) none
    cases lmGet m z <;> rfl
  | cons p ps ih =>
    intro m z
    rw [List.foldl_cons, ih, lmGet_updateMaxLh]
    show _ = omax2 (lmGet m z) (omax2 (if p.1 = z then some p.2 else none) (pointMaxLh ps z))
    by_cases h : z = p.1
    · rw [if_pos h, if_pos (h.symm), omax2_assoc]
    · rw [if_neg h, if_neg (fun hh : p.1 = z => h hh.symm)]
      cases lmGet m z <;> cases pointMaxLh ps z <;> rfl

theorem lmGet_eq_none_iff {F V : Type} [DecidableEq F] :
    ∀ (m : LinMap F V) (z : F), lmGet m z = none ↔ z ∉ m.map Prod.fst := by
  intro m
  induction m with
  | nil => intro z; simp [lmGet]
  | cons p ps ih =>
    intro z
    simp only [lmGet, List.map_cons, List.mem_cons]
    by_cases h : p.1 = z
    · simp [h]
    · have h' : ¬ z = p.1 := fun hh => h hh.symm
      simp [h, h', ih]

theorem keys_updateMaxLh {F : Type} [DecidableEq F] :
    ∀ (m : LinMap F Nat) (z : F) (lh : Nat),
      (updateMaxLh m z lh).map Prod.fst =
        if z ∈ m.map Prod.fst then m.map Prod.fst else m.map Prod.fst ++ [z] := by
  intro m
  induction m with
  | nil => intro z lh; simp [updateMaxLh]
  | cons p ps ih =>
    intro z lh
    simp only [updateMaxLh]
    by_cases h : p.1 = z
    · rw [if_pos h]
      simp [h]
    · rw [if_neg h]
      simp only [List.map_cons]
      rw [ih]
      have h' : ¬ z = p.1 := fun hh => h hh.symm
      by_cases hz : z ∈ ps.map Prod.fst
      · rw [if_pos hz, if_pos (by simp [hz])]
      · rw [if_neg hz, if_neg (by simp [hz, h'])]
        simp

theorem nodup_keys_updateMaxLh {F : Type} [DecidableEq F] (m : LinMap F Nat) (z : F)
    (lh : Nat) (h : (m.map Prod.fst).Nodup) :
    ((updateMaxLh m z lh).map Prod.fst).Nodup := by
  rw [keys_updateMaxLh]
  by_cases hz : z ∈ m.map Prod.fst
  · rw [if_pos hz]; exact h
  · rw [if_neg hz]
    simp [List.nodup_append, h, hz]

theorem nodup_keys_foldl_updateMaxLh {F : Type} [DecidableEq F] :
    ∀ (ps : List (F × Nat)) (m : LinMap F Nat), (m.map Prod.fst).Nodup →
      ((ps.foldl (fun m p => updateMaxLh m p.1 p.2) m).map Prod.fst).Nodup := by
  intro ps
  induction ps with
  | nil => intro m h; exact h
  | cons p ps ih =>
    intro m h
    rw [List.foldl_cons]
    exact ih _ (nodup_keys_updateMaxLh m p.1 p.2 h)

theorem lmGet_map_val {F A B : Type} [DecidableEq F] (f : F → A → B) :
    ∀ (m : LinMap F A) (z : F),
      lmGet (m.map fun p => (p.1, f p.1 p.2)) z = (lmGet m z).map (f z) := by
  intro m
  induction m with
  | nil => intro z; rfl
  | cons p ps ih =>
    intro z
    simp only [List.map_cons, lmGet]
    by_cases h : p.1 = z
    · rw [if_pos h, if_pos h, h]
      rfl
    · rw [if_neg h, if_neg h, ih]

theorem lmGet_compute_inverse_denominators {F : Type} [Field F] [DecidableEq F]
    (mp : MatsPoints F) (coset : List F) (z : F) :
    lmGet (compute_inverse_denominators mp coset) z =
      (lmGet (max_log_height_for_point mp) z).map fun lh =>
        (coset.take (2 ^ lh)).map fun x => (z - x)⁻¹ := by
  unfold compute_inverse_denominators batch_multiplicative_inverse
  rw [lmGet_map_val fun w lh => ((coset.take (2 ^ lh)).map fun x => w - x).map fun x => x⁻¹]
  cases lmGet (max_log_height_for_point mp) z <;>
    simp [List.map_map, Function.comp_def]

theorem g_pow_tower {F : Type} [Monoid F] (g : Nat → F) (K : Nat)
    (htower : ∀ i, i < K → g (i + 1) ^ 2 = g i) :
    ∀ (d j : Nat), j + d ≤ K → g (j + d) ^ 2 ^ d = g j := by
  intro d
  induction d with
  | zero => intro j _; simp
  | succ d ih =>
    intro j hj
    have h1 : g (j + d + 1) ^ 2 = g (j + d) := htower (j + d) (by omega)
    have h2 : (2 : Nat) ^ (d + 1) = 2 * 2 ^ d := by ring
    calc g (j + (d + 1)) ^ 2 ^ (d + 1)
        = (g (j + d + 1) ^ 2) ^ 2 ^ d := by
          rw [h2, pow_mul]
          rfl
      _ = g (j + d) ^ 2 ^ d := by rw [h1]
      _ = g j := ih j (by omega)

theorem length_cosetPoints {F : Type} [Field F] (gen : F) (g : Nat → F) (log_n : Nat) :
    (cosetPoints gen g log_n).length = 2 ^ log_n := by
  simp [cosetPoints]

theorem getD_cosetPoints {F : Type} [Field F] (gen : F) (g : Nat → F) (log_n m : Nat)
    (hm : m < 2 ^ log_n) :
    (cosetPoints gen g log_n).getD m 0 = gen * g log_n ^ m := by
  rw [List.getD_eq_getElem _ _ (by simp [length_cosetPoints, hm])]
  simp [cosetPoints, hm]

/-- The bit-reversal prefix property of the canonical coset: the length-`2^j`
front of the bit-reversed coset of size `2^K` is exactly the bit-reversed
coset of size `2^j`, given the generator-tower compatibility `g(i+1)^2 = g i`. -/
theorem bitrev_coset_take {F : Type} [Field F] (gen : F) (g : Nat → F) (K j : Nat)
    (hj : j ≤ K) (htower : ∀ i, i < K → g (i + 1) ^ 2 = g i) :
    (reverse_slice_index_bits 0 (cosetPoints gen g K)).take (2 ^ j) =
      reverse_slice_index_bits 0 (cosetPoints gen g j) := by
  have hlenK : (reverse_slice_index_bits 0 (cosetPoints gen g K)).length = 2 ^ K := by
    rw [length_reverse_slice_index_bits, length_cosetPoints]
  have hlenj : (reverse_slice_index_bits 0 (cosetPoints gen g j)).length = 2 ^ j := by
    rw [length_reverse_slice_index_bits, length_cosetPoints]
  have hple : (2 : Nat) ^ j ≤ 2 ^ K := Nat.pow_le_pow_right (by norm_num) hj
  apply List.ext_getElem
  · rw [List.length_take, hlenK, hlenj]
    omega
  · intro i h1 h2
    have hij : i < 2 ^ j := by
      rw [List.length_take, hlenK] at h1
      omega
    have hiK : i < 2 ^ K := lt_of_lt_of_le hij hple
    rw [List.getElem_take]
    rw [← List.getD_eq_getElem _ (0 : F), ← List.getD_eq_getElem _ (0 : F)]
    rw [getD_reverse_slice_index_bits 0 0 _ K i (by rw [length_cosetPoints]) hiK,
      getD_reverse_slice_index_bits 0 0 _ j i (by rw [length_cosetPoints]) hij]
    rw [getD_cosetPoints _ _ _ _ (reverse_bits_len_lt K i),
      getD_cosetPoints _ _ _ _ (reverse_bits_len_lt j i)]
    have hK : K = j + (K - j) := by omega
    rw [hK, reverse_bits_len_of_lt j (K - j) i hij, pow_mul,
      g_pow_tower g K htower (K - j) j (by omega)]

/-- **C6.** `compute_inverse_denominators` builds exactly one dense vector
per distinct opening point `z` (the key list has no duplicates), keyed by the
maximum log-height over all matrices opened at `z`; the vector has length
`2 ^ lh`, its `i`-th entry is `1/(z - x_i)` with `x_i` the `i`-th entry of
the bit-reversed canonical coset, and (because the coset is stored
bit-reversed) the vector any smaller height `j ≤ lh` needs at `z` is exactly
the length-`2^j` front of this vector. -/
theorem compute_inverse_denominators_spec {F : Type} [Field F] [DecidableEq F]
    (mp : MatsPoints F) (gen : F) (g : Nat → F) (K : Nat) (z : F) (lh : Nat)
    (htower : ∀ i, i < K → g (i + 1) ^ 2 = g i)
    (hmax : lmGet (max_log_height_for_point mp) z = some lh)
    (hlh : lh ≤ K) :
    ((max_log_height_for_point mp).map Prod.fst).Nodup ∧
      lmGet (max_log_height_for_point mp) z = pointMaxLh (pointPairs mp) z ∧
      (∃ v, lmGet (compute_inverse_denominators mp
          (reverse_slice_index_bits 0 (cosetPoints gen g K))) z = some v ∧
        v.length = 2 ^ lh ∧
        (∀ i, i < 2 ^ lh → v.getD i 0 =
          (z - (reverse_slice_index_bits 0 (cosetPoints gen g K)).getD i 0)⁻¹) ∧
        (∀ j, j ≤ lh →
          (reverse_slice_index_bits 0 (cosetPoints gen g j)).map (fun x => (z - x)⁻¹) =
            v.take (2 ^ j))) := by
  have hlenK : (reverse_slice_index_bits 0 (cosetPoints gen g K)).length = 2 ^ K := by
    rw [length_reverse_slice_index_bits, length_cosetPoints]
  have hple : (2 : Nat) ^ lh ≤ 2 ^ K := Nat.pow_le_pow_right (by norm_num) hlh
  refine ⟨?_, ?_, ?_⟩
  · rw [max_log_height_foldl]
    exact nodup_keys_foldl_updateMaxLh _ [] (by simp)
  · rw [max_log_height_foldl, lmGet_foldl_updateMaxLh]
    rfl
  · refine ⟨((reverse_slice_index_bits 0 (cosetPoints gen g K)).take (2 ^ lh)).map
      fun x => (z - x)⁻¹, ?_, ?_, ?_, ?_⟩
    · rw [lmGet_compute_inverse_denominators, hmax]
      rfl
    · rw [List.length_map, List.length_take, hlenK]
      omega
    · intro i hi
      have hiK : i < 2 ^ K := lt_of_lt_of_le hi hple
      have hlent : i < ((reverse_slice_index_bits 0 (cosetPoints gen g K)).take
          (2 ^ lh)).length := by
        rw [List.length_take, hlenK]
        omega
      rw [List.getD_eq_getElem _ _ (by rw [List.length_map]; exact hlent), List.getElem_map,
        List.getElem_take, List.getD_eq_getElem _ _ (by rw [hlenK]; exact hiK)]
    · intro j hjlh
      rw [← List.map_take, List.take_take, min_eq_left (Nat.pow_le_pow_right (by norm_num)
        hjlh), bitrev_coset_take gen g K j (le_trans hjlh hlh) htower]

/-- Witness for C6: two matrices (heights 4 and 2) opened at the same point
`7` over `ZMod 17`; the computed maximum log-height for `7` is `2`. -/
theorem compute_inverse_denominators_spec_witness :
    (∀ i, i < 2 → gBab (i + 1) ^ 2 = gBab i) ∧
      lmGet (max_log_height_for_point
        [([Mat.mk 1 [[1], [2], [3], [4]], Mat.mk 1 [[5], [6]]], [[(7 : ZMod 17)], [7]])]) 7 =
        some 2 ∧
      ((max_log_height_for_point
        [([Mat.mk 1 [[(1 : ZMod 17)], [2], [3], [4]], Mat.mk 1 [[5], [6]]],
          [[(7 : ZMod 17)], [7]])]).map Prod.fst).Nodup :=
  ⟨by decide, by decide,
    (compute_inverse_denominators_spec
      [([Mat.mk 1 [[1], [2], [3], [4]], Mat.mk 1 [[5], [6]]], [[(7 : ZMod 17)], [7]])]
      (3 : ZMod 17) gBab 2 7 2 (by decide) (by decide) (by decide)).1⟩

end TwoAdicPcs
